import Mathlib

/-!
# gnvm: nodehandle/npm.go

A shallow embedding of the npm install workflow of gnvm (package nodehandle,
file npm.go) and the properties of it that the specification states.

The Go code talks to the operating system (files, archives, network, console).
Those primitives are collected in the record `Host`; the methods of
`NPMDownload` are written once, over an arbitrary host, with explicit state
passing.  Every primitive invocation is appended to a log, so that statements
such as "no later step is executed" are statements about the log.
-/

namespace Gnvm

/-- Go error values: a non-nil error carries a message. -/
abbrev Err := String

/-- The struct NPMDownload of npm.go, field for field. -/
structure NPMDownload where
  root : String
  zipname : String
  ziproot : String
  zippath : String
  modules : String
  npmpath : String
  npmbin : String
  command1 : String
  command2 : String
deriving DecidableEq, Repr

/-- The zero value that the package variable npm starts with. -/
def NPMDownload.zero : NPMDownload :=
  ⟨"", "", "", "", "", "", "", "", ""⟩

/-- One member of an opened archive (zip.File): stored name, directory flag,
mode bits and the decompressed payload. -/
structure ZipFile where
  name : String
  isDir : Bool
  mode : Nat
  data : List Nat
deriving DecidableEq, Repr

/-- The operating-system and library primitives that npm.go invokes. -/
inductive Call where
  | curlNew (url name dst root : String)
  | isDirExist (path : String)
  | mkdir (path : String)
  | zipOpenReader (path : String)
  | fileOpen (name : String)
  | mkdirAll (path : String) (mode : Nat)
  | openFile (path : String) (mode : Nat)
  | copyEntry (path name : String)
  | rename (src dst : String)
  | osOpen (path : String)
  | osCreate (path : String)
  | copyPath (dst src : String)
  | sync (path : String)
  | close (path : String)
  | removeAll (path : String)
  | curlGet (url : String)
  | readAll
  | newJson
  | execOutput (cmd : String) (args : List String)
  | scanf
deriving DecidableEq, Repr

/-- The calls that change the file system: download, mkdir, extract (create,
write), rename, copy and remove. -/
def Call.mutating : Call → Bool
  | .curlNew _ _ _ _ => true
  | .mkdir _ => true
  | .mkdirAll _ _ => true
  | .openFile _ _ => true
  | .copyEntry _ _ => true
  | .rename _ _ => true
  | .osCreate _ => true
  | .copyPath _ _ => true
  | .removeAll _ => true
  | _ => false

/-- The steps that downloadNpm sequences. -/
inductive Step where
  | download
  | createModules
  | cleanAll
  | unzip
  | exec
  | clean
deriving DecidableEq, Repr

/-- What the log records: a step of downloadNpm being started, a primitive
being invoked, and the assignment to the field ziproot. -/
inductive Event where
  | step (s : Step)
  | call (c : Call)
  | assignZiproot (v : String)
deriving DecidableEq, Repr

/-- The environment of npm.go: constants of the packages util and config that
are not part of this file, and the primitives of the Go libraries, as
functions of an abstract machine state. A primitive that can fail returns its
error (none for nil) next to the new state. -/
structure Host (σ : Type) where
  DIVIDE : String
  NPM : String
  LATEST : String
  GLOBAL : String
  UNKNOWN : String
  TAOBAO : String
  rootPath : String
  getNodeRoot : σ → String
  getRegistry : σ → String
  curlNew : σ → String → String → String → String → Option Err × σ
  isDirExist : σ → String → Bool
  mkdir : σ → String → Option Err × σ
  zipOpenReader : σ → String → Except Err (List ZipFile)
  fileOpen : σ → ZipFile → Option Err
  join : String → String → String
  mkdirAll : σ → String → Nat → Option Err × σ
  openFile : σ → String → Nat → Option Err × σ
  copyEntry : σ → String → ZipFile → Option Err × σ
  rename : σ → String → String → Option Err × σ
  osOpen : σ → String → Option Err
  osCreate : σ → String → Option Err × σ
  copyPath : σ → String → String → Option Err × σ
  sync : σ → String → Option Err × σ
  close : σ → String → Option Err × σ
  removeAll : σ → String → Option Err × σ
  curlGet : σ → String → Except Err String
  readAll : σ → String → Except Err String
  jsonVersion : String → Except Err String
  execOutput : σ → String → List String → Except Err String
  scanf : σ → Option String

/-- The whole state: the machine, the package variable npm, and the log. -/
structure Sys (σ : Type) where
  os : σ
  npm : NPMDownload
  log : List Event

variable {σ : Type}

/-- Append one event to the log. -/
def Sys.note (S : Sys σ) (e : Event) : Sys σ :=
  { S with log := S.log ++ [e] }

/-- Run a state-changing primitive: log the call, install the new machine
state, hand back the error. -/
def Sys.effect (S : Sys σ) (c : Call) (r : Option Err × σ) : Option Err × Sys σ :=
  (r.1, { S with os := r.2, log := S.log ++ [Event.call c] })

/-- The library function strings.ToLower, on the characters of the string. -/
def ToLower (s : String) : String := String.mk (s.data.map Char.toLower)

/-- The library function unicode.IsSpace: the white space of Latin-1 (tab, line
feed, vertical tab, form feed, carriage return, space, U+0085, U+00A0) and the
other characters with the Unicode property White_Space. -/
def IsSpace (c : Char) : Bool :=
  (9 ≤ c.toNat && c.toNat ≤ 13) || c.toNat = 0x20 || c.toNat = 0x85 || c.toNat = 0xA0 ||
  c.toNat = 0x1680 || (0x2000 ≤ c.toNat && c.toNat ≤ 0x200A) || c.toNat = 0x2028 ||
  c.toNat = 0x2029 || c.toNat = 0x202F || c.toNat = 0x205F || c.toNat = 0x3000

/-- The library function strings.TrimSpace: all leading and trailing Unicode
white space is dropped. -/
def TrimSpace (s : String) : String :=
  String.mk ((s.data.dropWhile IsSpace).reverse.dropWhile IsSpace).reverse

/-- Constants of npm.go. -/
def NPMTAOBAO : String := "http://npm.taobao.org/mirrors/npm/"

/-- Constants of npm.go. -/
def NPMDEFAULT : String := "https://github.com/npm/npm/releases/"

/-- Constants of npm.go. -/
def ZIP : String := ".zip"

/-- Method New (npm.go 60-69): every field but ziproot is assigned. -/
def New (H : Host σ) (S : Sys σ) (zip : String) : Sys σ :=
  let root := H.getNodeRoot S.os
  let modules := root ++ H.DIVIDE ++ "node_modules"
  let zippath := root ++ H.DIVIDE ++ zip
  let npmpath := modules ++ H.DIVIDE ++ H.NPM
  let npmbin := npmpath ++ H.DIVIDE ++ "bin"
  { S with npm :=
      { root := root, zipname := zip, ziproot := S.npm.ziproot, zippath := zippath,
        modules := modules, npmpath := npmpath, npmbin := npmbin,
        command1 := "npm", command2 := "npm.cmd" } }

/-- Method CreateModules (npm.go 81-89): a failed Mkdir is only printed. -/
def CreateModules (H : Host σ) (S : Sys σ) : Sys σ :=
  let S1 := S.note (.call (.isDirExist S.npm.modules))
  if H.isDirExist S.os S.npm.modules then S1
  else (S1.effect (.mkdir S.npm.modules) (H.mkdir S.os S.npm.modules)).2

/-- Method Download (npm.go 100-107). -/
def Download (H : Host σ) (S : Sys σ) (url name : String) : Option Err × Sys σ :=
  S.effect (.curlNew url name name S.npm.root) (H.curlNew S.os url name name S.npm.root)

/-- The statement "if idx == 0 then ziproot = file.Name" (npm.go 134-136). -/
def assignRoot (S : Sys σ) (file : ZipFile) (idx : Nat) : Sys σ :=
  if idx = 0 then
    { S with npm := { S.npm with ziproot := file.name },
             log := S.log ++ [Event.assignZiproot file.name] }
  else S

/-- The closure extractAndWriteFile of Unzip (npm.go 128-151). The deferred
Close calls run when the closure returns, last registered first; their results
are discarded. -/
def extractAndWriteFile (H : Host σ) (S : Sys σ) (file : ZipFile) (idx : Nat) :
    (Int × Option Err) × Sys σ :=
  let S1 := S.note (.call (.fileOpen file.name))
  match H.fileOpen S.os file with
  | some e => ((-2, some e), S1)
  | none =>
    let S2 := assignRoot S1 file idx
    let path := H.join S.npm.modules file.name
    if file.isDir then
      let S3 := (S2.effect (.mkdirAll path file.mode) (H.mkdirAll S2.os path file.mode)).2
      ((0, none), (S3.effect (.close file.name) (H.close S3.os file.name)).2)
    else
      match S2.effect (.openFile path file.mode) (H.openFile S2.os path file.mode) with
      | (some e, S3) => ((-3, some e), (S3.effect (.close file.name) (H.close S3.os file.name)).2)
      | (none, S3) =>
        match S3.effect (.copyEntry path file.name) (H.copyEntry S3.os path file) with
        | (some e, S4) =>
          let S5 := (S4.effect (.close path) (H.close S4.os path)).2
          ((-4, some e), (S5.effect (.close file.name) (H.close S5.os file.name)).2)
        | (none, S4) =>
          let S5 := (S4.effect (.close path) (H.close S4.os path)).2
          ((0, none), (S5.effect (.close file.name) (H.close S5.os file.name)).2)

/-- The loop of Unzip over unzip.File (npm.go 153-160). -/
def unzipLoop (H : Host σ) : List ZipFile → Nat → Sys σ → (Int × Option Err) × Sys σ
  | [], _, S => ((0, none), S)
  | file :: rest, idx, S =>
    match extractAndWriteFile H S file idx with
    | ((code, some e), S1) => ((code, some e), S1)
    | ((_, none), S1) => unzipLoop H rest (idx + 1) S1

/-- Method Unzip (npm.go 120-161). -/
def Unzip (H : Host σ) (S : Sys σ) : (Int × Option Err) × Sys σ :=
  let path := S.npm.zippath
  let S1 := S.note (.call (.zipOpenReader path))
  match H.zipOpenReader S.os path with
  | .error e => ((-1, some e), S1)
  | .ok files =>
    let r := unzipLoop H files 0 S1
    (r.1, (r.2.effect (.close path) (H.close r.2.os path)).2)

/-- Function copyFile (npm.go 378-401). The deferred closure takes the error
of out.Close only when no earlier error is pending. -/
def copyFile (H : Host σ) (S : Sys σ) (src dst name : String) : Option Err × Sys σ :=
  let src := src ++ H.DIVIDE ++ name
  let dst := dst ++ H.DIVIDE ++ name
  let S1 := S.note (.call (.osOpen src))
  match H.osOpen S.os src with
  | some e => (some e, S1)
  | none =>
    match S1.effect (.osCreate dst) (H.osCreate S1.os dst) with
    | (some e, S2) => (some e, (S2.effect (.close src) (H.close S2.os src)).2)
    | (none, S2) =>
      match S2.effect (.copyPath dst src) (H.copyPath S2.os dst src) with
      | (some e, S3) =>
        let S4 := (S3.effect (.close dst) (H.close S3.os dst)).2
        (some e, (S4.effect (.close src) (H.close S4.os src)).2)
      | (none, S3) =>
        match S3.effect (.sync dst) (H.sync S3.os dst) with
        | (some e, S4) =>
          let S5 := (S4.effect (.close dst) (H.close S4.os dst)).2
          (some e, (S5.effect (.close src) (H.close S5.os src)).2)
        | (none, S4) =>
          let c := S4.effect (.close dst) (H.close S4.os dst)
          (c.1, (c.2.effect (.close src) (H.close c.2.os src)).2)

/-- Method Exec (npm.go 167-181). -/
def Exec (H : Host σ) (S : Sys σ) : Option Err × Sys σ :=
  let src := S.npm.modules ++ H.DIVIDE ++ S.npm.ziproot
  match S.effect (.rename src S.npm.npmpath) (H.rename S.os src S.npm.npmpath) with
  | (some e, S1) => (some e, S1)
  | (none, S1) =>
    match copyFile H S1 S.npm.npmbin S.npm.root S.npm.command1 with
    | (some e, S2) => (some e, S2)
    | (none, S2) =>
      match copyFile H S2 S.npm.npmbin S.npm.root S.npm.command2 with
      | (some e, S3) => (some e, S3)
      | (none, S3) => (none, S3)

/-- Method Clean (npm.go 190-198). -/
def Clean (H : Host σ) (S : Sys σ) (path : String) : Option Err × Sys σ :=
  let S1 := S.note (.call (.isDirExist path))
  if H.isDirExist S.os path then
    S1.effect (.removeAll path) (H.removeAll S1.os path)
  else (none, S1)

/-- The loop of CleanAll over its three paths. -/
def cleanEach (H : Host σ) : List String → Sys σ → Option Err × Sys σ
  | [], S => (none, S)
  | v :: rest, S =>
    match Clean H S v with
    | (some e, S1) => (some e, S1)
    | (none, S1) => cleanEach H rest S1

/-- Method CleanAll (npm.go 203-211). -/
def CleanAll (H : Host σ) (S : Sys σ) : Option Err × Sys σ :=
  cleanEach H
    [S.npm.npmpath, S.npm.root ++ H.DIVIDE ++ S.npm.command1,
     S.npm.root ++ H.DIVIDE ++ S.npm.command2] S

/-- The return path that a run of downloadNpm takes. -/
inductive DlOutcome where
  | downloadFailed (e : Err)
  | unzipFailed (code : Int) (e : Err)
  | execFailed (e : Err)
  | done (cleanErr : Option Err)
deriving DecidableEq, Repr

/-- The archive name that downloadNpm builds from the version (npm.go 297). -/
def zipNameOf (version : String) : String := "v" ++ version ++ ZIP

/-- The download url that downloadNpm picks (npm.go 298-301). -/
def urlOf (H : Host σ) (s : σ) (version : String) : String :=
  if H.getRegistry s ≠ H.TAOBAO then NPMDEFAULT ++ zipNameOf version
  else NPMTAOBAO ++ zipNameOf version

/-- Function downloadNpm (npm.go 296-341). The results of CreateModules,
CleanAll and the final Clean are not inspected by the code. -/
def downloadNpm (H : Host σ) (S : Sys σ) (version : String) : DlOutcome × Sys σ :=
  let zip := zipNameOf version
  let url := urlOf H S.os version
  let S0 := New H S zip
  match Download H (S0.note (.step .download)) url zip with
  | (some e, S1) => (.downloadFailed e, S1)
  | (none, S1) =>
    let S2 := CreateModules H (S1.note (.step .createModules))
    let S3 := (CleanAll H (S2.note (.step .cleanAll))).2
    match Unzip H (S3.note (.step .unzip)) with
    | ((code, some e), S4) => (.unzipFailed code e, S4)
    | ((_, none), S4) =>
      match Exec H (S4.note (.step .exec)) with
      | (some e, S5) => (.execFailed e, S5)
      | (none, S5) =>
        let c := Clean H (S5.note (.step .clean)) S5.npm.zippath
        (.done c.1, c.2)

/-- Function getLatNPMVer (npm.go 261-279): each of the three errors is a
panic, here the error branch. -/
def getLatNPMVer (H : Host σ) (S : Sys σ) (url : String) : Except Err String × Sys σ :=
  let S1 := S.note (.call (.curlGet url))
  match H.curlGet S.os url with
  | .error e => (.error e, S1)
  | .ok res =>
    let S2 := S1.note (.call .readAll)
    match H.readAll S.os res with
    | .error e => (.error e, S2)
    | .ok body =>
      let S3 := S2.note (.call .newJson)
      match H.jsonVersion body with
      | .error e => (.error e, S3)
      | .ok ver => (.ok ver, S3)

/-- Function getGlobalNPMVer (npm.go 284-291). -/
def getGlobalNPMVer (H : Host σ) (S : Sys σ) : String × Sys σ :=
  let cmd := H.rootPath ++ H.NPM
  let S1 := S.note (.call (.execOutput cmd ["-v"]))
  match H.execOutput S.os cmd ["-v"] with
  | .error _ => (H.UNKNOWN, S1)
  | .ok out => (TrimSpace out, S1)

/-- The url of the package descriptor (npm.go 26). -/
def LATNPMURL : String := "https://raw.githubusercontent.com/npm/npm/master/package.json"

/-- The branch of InstallNPM that a call ends in. -/
inductive Outcome where
  | exited (e : Err)
  | updated (o : DlOutcome)
  | declined
  | remoteOlder
  | same
  | global
  | unsupported
deriving DecidableEq, Repr

/-- Function InstallNPM (npm.go 213-252); FormatNodeVer of package util is the
parameter fmt. -/
def InstallNPM {V : Type} [LinearOrder V] (H : Host σ) (fmt : String → V) (S : Sys σ)
    (version : String) : Outcome × Sys σ :=
  let version := ToLower version
  if version = H.LATEST then
    match getLatNPMVer H S LATNPMURL with
    | (.error e, S1) => (.exited e, S1)
    | (.ok remote, S1) =>
      let l := getGlobalNPMVer H S1
      let v1 := fmt remote
      let v2 := fmt l.1
      if v1 > v2 then
        let S3 := l.2.note (.call .scanf)
        let prompt := ToLower ((H.scanf l.2.os).getD "n")
        if prompt = "y" then
          let r := downloadNpm H S3 remote
          (.updated r.1, r.2)
        else (.declined, S3)
      else if v1 < v2 then (.remoteOlder, l.2)
      else (.same, l.2)
  else if version = H.GLOBAL then (.global, S)
  else (.unsupported, S)

/-- The steps recorded in a log, in order. -/
def stepsOf : List Event → List Step
  | [] => []
  | .step s :: rest => s :: stepsOf rest
  | _ :: rest => stepsOf rest

/-- The values assigned to ziproot in a log, in order. -/
def assignsOf : List Event → List String
  | [] => []
  | .assignZiproot v :: rest => v :: assignsOf rest
  | _ :: rest => assignsOf rest

/-! ## A simulated machine

The instance of `Host` used to run the code on concrete inputs: a file system
as a tree of directories and byte files, a table of remote resources, and a
table of injected faults (a primitive named in the table returns the given
error and changes nothing).

Paths are resolved lexically, the way filepath.Clean and the path
normalisation of Windows, the platform of gnvm, do it: the text is split at
the separator, "." is skipped and ".." steps to the parent. The working
directory is the root directory, which is its own parent; there are no
symbolic links. The empty text names no file. -/

/-- A path as its list of components. -/
abbrev Path := List String

/-- What a path can hold. -/
inductive Node where
  | dir
  | file (data : List Nat)
deriving DecidableEq, Repr

/-- A file system: what each path holds, if anything. -/
abbrev Disk := Path → Option Node

/-- Split a character sequence at every slash, dropping empty components;
cur holds the characters of the component being read. -/
def compsGo : List Char → List Char → List String
  | cur, [] => if cur = [] then [] else [String.mk cur]
  | cur, c :: cs =>
    if c = '/' then
      (if cur = [] then compsGo [] cs else String.mk cur :: compsGo [] cs)
    else compsGo (cur ++ [c]) cs

/-- The pieces of a path text between its slashes. -/
def pieces (s : String) : List String := compsGo [] s.data

/-- Walk the pieces of a path text from a directory: "." stays, ".." goes to
the parent (the root is its own parent), a name goes down. -/
def resolveFrom : Path → List String → Path
  | base, [] => base
  | base, c :: cs =>
    if c = "." then resolveFrom base cs
    else if c = ".." then resolveFrom base.dropLast cs
    else resolveFrom (base ++ [c]) cs

/-- The file that a non-empty path text names: its components after lexical
resolution from the root directory. -/
def comps (s : String) : Path := resolveFrom [] (pieces s)

/-- The text of a resolved path below the root. -/
def renderGo : Path → String
  | [] => ""
  | c :: cs => "/" ++ c ++ renderGo cs

/-- The clean, rooted text of a resolved path. -/
def render (p : Path) : String := if p = [] then "/" else renderGo p

/-- The library function filepath.Join for two elements: empty elements are
ignored, the rest is joined by the separator and cleaned. With the root as
working directory the clean path is written rooted. -/
def filepathJoin (a b : String) : String :=
  if a = "" ∧ b = "" then "" else render (comps (a ++ "/" ++ b))

/-- Run a primitive on the file that a path text names; the empty text names
none. -/
def onPath (p : String) (d : Disk) (k : Path → Option Err × Disk) : Option Err × Disk :=
  if p = "" then (some "no such file or directory", d) else k (comps p)

/-- What a path holds; the empty path is the root directory. -/
def look (d : Disk) (p : Path) : Option Node :=
  if p = [] then some Node.dir else d p

/-- The disk with one path replaced. -/
def put (d : Disk) (p : Path) (n : Node) : Disk :=
  fun q => if q = p then some n else d q

/-- True when the path holds a directory. -/
def isDirAt (d : Disk) (p : Path) : Bool := look d p = some Node.dir

/-- True when the path holds a file. -/
def isFileAt (d : Disk) (p : Path) : Bool :=
  match look d p with
  | some (Node.file _) => true
  | _ => false

/-- Create or truncate a file: refused on a directory and when the parent
is not a directory. -/
def createAt (d : Disk) (p : Path) : Option Err × Disk :=
  if isDirAt d p then (some "is a directory", d)
  else if isDirAt d p.dropLast then (none, put d p (Node.file []))
  else (some "no such directory", d)

/-- The disk with every missing directory on the way to a path created. -/
def withDirs (d : Disk) (p : Path) : Disk :=
  fun q => if q.isPrefixOf p && (d q).isNone then some Node.dir else d q

/-- The semantics of os.MkdirAll: refused when the path or an ancestor is a
file, otherwise every missing directory on the way is created. -/
def mkdirAllAt (d : Disk) (p : Path) : Option Err × Disk :=
  if p.inits.any (isFileAt d) then (some "not a directory", d)
  else (none, withDirs d p)

/-- The semantics of os.Mkdir. -/
def mkdirAt (d : Disk) (p : Path) : Option Err × Disk :=
  if (look d p).isSome then (some "file exists", d)
  else if isDirAt d p.dropLast then (none, put d p Node.dir)
  else (some "no such directory", d)

/-- The semantics of os.Rename: the tree at src moves to dst. An existing
file at dst is replaced by a file. Refused when src is missing, when dst is an
existing directory (other than src itself), when a directory would replace a
file, when dst lies inside src, and when the parent of dst is not a
directory. -/
def renameAt (d : Disk) (src dst : Path) : Option Err × Disk :=
  if (look d src).isNone || src = [] then (some "no such file or directory", d)
  else if src = dst then (none, d)
  else if isDirAt d dst || (isFileAt d dst && isDirAt d src) then (some "file exists", d)
  else if src.isPrefixOf dst then (some "invalid argument", d)
  else if isDirAt d dst.dropLast then
    (none, fun q =>
      if dst.isPrefixOf q then d (src ++ q.drop dst.length)
      else if src.isPrefixOf q then none
      else d q)
  else (some "no such directory", d)

/-- The disk without a path and everything below it. -/
def removeAllAt (d : Disk) (p : Path) : Disk :=
  fun q => if p.isPrefixOf q then none else d q

/-- The semantics of os.RemoveAll: nil and nothing done on the empty text;
the tree at the path goes; the root directory itself cannot be removed, so
on it the content goes and an error comes back. -/
def removeAllPath (d : Disk) (p : String) : Option Err × Disk :=
  if p = "" then (none, d)
  else if comps p = [] then (some "device or resource busy", removeAllAt d [])
  else (none, removeAllAt d (comps p))

/-- The semantics of os.Rename on path texts. -/
def renamePath (d : Disk) (a b : String) : Option Err × Disk :=
  if a = "" ∨ b = "" then (some "no such file or directory", d)
  else renameAt d (comps a) (comps b)

/-- The configuration of a simulated machine. -/
structure Sim where
  root : String
  registry : String
  remote : String → Option (List Nat)
  decode : List Nat → Option (List ZipFile)
  fault : Call → Option Err
  latest : Except Err String
  installed : Except Err String
  answer : Option String

/-- Apply the fault table before the regular behaviour of a primitive. -/
def Sim.guard (m : Sim) (c : Call) (d : Disk) (r : Option Err × Disk) : Option Err × Disk :=
  match m.fault c with
  | some e => (some e, d)
  | none => r

/-- Modelled from the spec: the helper isDirExist of package nodehandle is not
in npm.go. The specification of clean reads: no-op if the path does not exist,
otherwise recursively removes it; so the helper answers whether the path
exists. -/
def isDirExistAt (d : Disk) (path : String) : Bool :=
  path ≠ "" && (look d (comps path)).isSome

/-- The simulated download: the bytes of the remote resource are written to
root/dst. -/
def curlNewAt (m : Sim) (d : Disk) (url dst root : String) : Option Err × Disk :=
  match m.remote url with
  | none => (some "404", d)
  | some bytes =>
    match createAt d (comps (root ++ "/" ++ dst)) with
    | (some e, d1) => (some e, d1)
    | (none, d1) => (none, put d1 (comps (root ++ "/" ++ dst)) (Node.file bytes))

/-- The simulated zip.OpenReader. -/
def zipOpenReaderAt (m : Sim) (d : Disk) (path : String) : Except Err (List ZipFile) :=
  match m.fault (.zipOpenReader path) with
  | some e => .error e
  | none =>
    if path = "" then .error "no such file"
    else
      match look d (comps path) with
      | some (Node.file bytes) =>
        match m.decode bytes with
        | some files => .ok files
        | none => .error "zip: not a valid zip file"
      | _ => .error "no such file"

/-- The simulated io.Copy between two open files. -/
def copyPathAt (d : Disk) (dst src : Path) : Option Err × Disk :=
  match look d src with
  | some (Node.file bytes) => (none, put d dst (Node.file bytes))
  | _ => (some "read error", d)

/-- The simulated machine as a host. The separator is the slash and the
package name is npm. -/
def Sim.host (m : Sim) : Host Disk where
  DIVIDE := "/"
  NPM := "npm"
  LATEST := "latest"
  GLOBAL := "global"
  UNKNOWN := "unknown"
  TAOBAO := "taobao"
  rootPath := m.root ++ "/"
  getNodeRoot := fun _ => m.root
  getRegistry := fun _ => m.registry
  curlNew := fun d url name dst root =>
    m.guard (.curlNew url name dst root) d (curlNewAt m d url dst root)
  isDirExist := isDirExistAt
  mkdir := fun d p => m.guard (.mkdir p) d (onPath p d (mkdirAt d))
  zipOpenReader := zipOpenReaderAt m
  fileOpen := fun _ f => m.fault (.fileOpen f.name)
  join := filepathJoin
  mkdirAll := fun d p mode => m.guard (.mkdirAll p mode) d (onPath p d (mkdirAllAt d))
  openFile := fun d p mode => m.guard (.openFile p mode) d (onPath p d (createAt d))
  copyEntry := fun d p f =>
    m.guard (.copyEntry p f.name) d (none, put d (comps p) (Node.file f.data))
  rename := fun d a b => m.guard (.rename a b) d (renamePath d a b)
  osOpen := fun d p =>
    match m.fault (.osOpen p) with
    | some e => some e
    | none => if p ≠ "" ∧ (look d (comps p)).isSome then none else some "no such file"
  osCreate := fun d p => m.guard (.osCreate p) d (onPath p d (createAt d))
  copyPath := fun d a b => m.guard (.copyPath a b) d (copyPathAt d (comps a) (comps b))
  sync := fun d p => m.guard (.sync p) d (none, d)
  close := fun d p => m.guard (.close p) d (none, d)
  removeAll := fun d p => m.guard (.removeAll p) d (removeAllPath d p)
  curlGet := fun _ _ => m.latest
  readAll := fun _ body => .ok body
  jsonVersion := fun body => .ok body
  execOutput := fun _ _ _ => m.installed
  scanf := fun _ => m.answer

/-- The place that Unzip extracts an archive entry of the given name to:
filepath.Join of root/node_modules and the name, resolved. -/
def destOf (m : Sim) (name : String) : Path :=
  comps (filepathJoin (m.root ++ "/" ++ "node_modules") name)

/-- A state with the given disk, the zero-valued npm and an empty log. -/
def Sys.init (d : Disk) : Sys Disk := ⟨d, NPMDownload.zero, []⟩

/-- A disk given by a table. -/
def diskOf (t : List (Path × Node)) : Disk := fun p => (t.lookup p)

/-! ## Sample inputs -/

/-- An archive laid out like an npm release: one top folder, its bin folder
and the two launchers. -/
def sampleArchive : List ZipFile :=
  [⟨"npm-3.8.5/", true, 493, []⟩, ⟨"npm-3.8.5/bin/", true, 493, []⟩,
   ⟨"npm-3.8.5/bin/npm", false, 420, [1, 2]⟩, ⟨"npm-3.8.5/bin/npm.cmd", false, 420, [3]⟩]

/-- A machine rooted at /tmp/x whose mirror serves the sample archive as
v3.8.5.zip, with the given fault table. -/
def sampleSim (fault : Call → Option Err) : Sim where
  root := "/tmp/x"
  registry := "taobao"
  remote := fun u => if u = "http://npm.taobao.org/mirrors/npm/v3.8.5.zip" then some [7] else none
  decode := fun b => if b = [7] then some sampleArchive else none
  fault := fault
  latest := .ok "3.8.5"
  installed := .error "not found"
  answer := some "Y"

/-- No injected fault. -/
def noFault : Call → Option Err := fun _ => none

/-- A disk that holds the directory /tmp/x and nothing else. -/
def sampleDisk : Disk := diskOf [(["tmp"], Node.dir), (["tmp", "x"], Node.dir)]

/-- A fault table that refuses the one given call. -/
def failOn (c : Call) (e : Err) : Call → Option Err := fun x => if x = c then some e else none

/-- A machine like the sample one whose archive is a valid zip file with no
entries. -/
def emptyArchiveSim : Sim :=
  { sampleSim noFault with decode := fun b => if b = [7] then some [] else none }

end Gnvm

namespace Gnvm

variable {σ : Type}

/-! ## Path planning: New -/

/-- C8: after New(z) the fields zipname, zippath, modules, npmpath, npmbin,
command1 and command2 are the stated functions of the configured root r and of
z, whatever the receiver held before; and with the archive name that
downloadNpm builds, root /tmp/x and version 3.8.5 give /tmp/x/v3.8.5.zip. -/
theorem New_fields (H : Host σ) (S : Sys σ) (z : String) :
    (New H S z).npm.root = H.getNodeRoot S.os ∧
    (New H S z).npm.zipname = z ∧
    (New H S z).npm.zippath = H.getNodeRoot S.os ++ H.DIVIDE ++ z ∧
    (New H S z).npm.modules = H.getNodeRoot S.os ++ H.DIVIDE ++ "node_modules" ∧
    (New H S z).npm.npmpath =
      H.getNodeRoot S.os ++ H.DIVIDE ++ "node_modules" ++ H.DIVIDE ++ H.NPM ∧
    (New H S z).npm.npmbin =
      H.getNodeRoot S.os ++ H.DIVIDE ++ "node_modules" ++ H.DIVIDE ++ H.NPM ++ H.DIVIDE ++ "bin" ∧
    (New H S z).npm.command1 = "npm" ∧
    (New H S z).npm.command2 = "npm.cmd" ∧
    (∀ (m : Sim) (T : Sys Disk),
      (New (Sim.host { m with root := "/tmp/x" }) T (zipNameOf "3.8.5")).npm.zippath
        = "/tmp/x/v3.8.5.zip") := by
  refine ⟨rfl, rfl, rfl, rfl, rfl, rfl, rfl, rfl, ?_⟩
  intro m T
  simp only [New, Sim.host]
  decide

/-! ## Logs -/

theorem stepsOf_append (a b : List Event) : stepsOf (a ++ b) = stepsOf a ++ stepsOf b := by
  induction a with
  | nil => rfl
  | cons e a ih => cases e <;> simp [stepsOf, ih]

theorem assignsOf_append (a b : List Event) :
    assignsOf (a ++ b) = assignsOf a ++ assignsOf b := by
  induction a with
  | nil => rfl
  | cons e a ih => cases e <;> simp [assignsOf, ih]

@[simp] theorem effect_log (S : Sys σ) (c : Call) (r : Option Err × σ) :
    (S.effect c r).2.log = S.log ++ [Event.call c] := rfl

@[simp] theorem effect_npm (S : Sys σ) (c : Call) (r : Option Err × σ) :
    (S.effect c r).2.npm = S.npm := rfl

@[simp] theorem effect_os (S : Sys σ) (c : Call) (r : Option Err × σ) :
    (S.effect c r).2.os = r.2 := rfl

@[simp] theorem effect_fst (S : Sys σ) (c : Call) (r : Option Err × σ) :
    (S.effect c r).1 = r.1 := rfl

@[simp] theorem assignRoot_os (S : Sys σ) (f : ZipFile) (idx : Nat) :
    (assignRoot S f idx).os = S.os := by
  unfold assignRoot; split <;> rfl

@[simp] theorem assignRoot_modules (S : Sys σ) (f : ZipFile) (idx : Nat) :
    (assignRoot S f idx).npm.modules = S.npm.modules := by
  unfold assignRoot; split <;> rfl

theorem steps_assignRoot (S : Sys σ) (f : ZipFile) (idx : Nat) :
    stepsOf (assignRoot S f idx).log = stepsOf S.log := by
  unfold assignRoot; split <;> simp [stepsOf_append, stepsOf]

@[simp] theorem note_log (S : Sys σ) (e : Event) : (S.note e).log = S.log ++ [e] := rfl

@[simp] theorem note_npm (S : Sys σ) (e : Event) : (S.note e).npm = S.npm := rfl

@[simp] theorem note_os (S : Sys σ) (e : Event) : (S.note e).os = S.os := rfl

/-! ## InstallNPM -/

/-- C10: an explicit version such as 3.8.5 is not resolved as the target
version: InstallNPM takes the default branch of the switch, which reports the
parameter as unsupported and returns; downloadNpm is not run, and neither the
machine nor the log changes. -/
theorem InstallNPM_explicit_version_unsupported {V : Type} [LinearOrder V] (m : Sim)
    (fmt : String → V) (S : Sys Disk) :
    InstallNPM m.host fmt S "3.8.5" = (Outcome.unsupported, S) := by
  have h1 : ToLower "3.8.5" ≠ m.host.LATEST := by
    show ToLower "3.8.5" ≠ "latest"
    decide
  have h2 : ToLower "3.8.5" ≠ m.host.GLOBAL := by
    show ToLower "3.8.5" ≠ "global"
    decide
  simp only [InstallNPM, if_neg h1, if_neg h2]

/-- C2: when InstallNPM is called with latest and the remote label does not
format to more than the local one, the run ends without starting any step of
downloadNpm: the machine state and npm are untouched and the only calls made
are the descriptor fetch and the version probe, none of which mutates the file
system. -/
theorem InstallNPM_latest_not_newer {V : Type} [LinearOrder V] (H : Host σ)
    (fmt : String → V) (S S1 : Sys σ) (version remote : String)
    (hv : ToLower version = H.LATEST)
    (hr : getLatNPMVer H S LATNPMURL = (Except.ok remote, S1))
    (hle : fmt remote ≤ fmt (getGlobalNPMVer H S1).1) :
    ((InstallNPM H fmt S version).1 = Outcome.remoteOlder ∨
      (InstallNPM H fmt S version).1 = Outcome.same) ∧
    (InstallNPM H fmt S version).2.os = S.os ∧
    (InstallNPM H fmt S version).2.npm = S.npm ∧
    stepsOf (InstallNPM H fmt S version).2.log = stepsOf S.log ∧
    (InstallNPM H fmt S version).2.log =
      S.log ++ [Event.call (Call.curlGet LATNPMURL), Event.call Call.readAll,
        Event.call Call.newJson,
        Event.call (Call.execOutput (H.rootPath ++ H.NPM) ["-v"])] ∧
    (∀ c ∈ [Call.curlGet LATNPMURL, Call.readAll, Call.newJson,
        Call.execOutput (H.rootPath ++ H.NPM) ["-v"]], c.mutating = false) := by
  have hS1 : S1 = ((S.note (.call (.curlGet LATNPMURL))).note (.call .readAll)).note
      (.call .newJson) := by
    simp only [getLatNPMVer] at hr
    split at hr
    · simp at hr
    · split at hr
      · simp at hr
      · split at hr
        · simp at hr
        · simp only [Prod.mk.injEq] at hr
          exact hr.2.symm
  have hg : (getGlobalNPMVer H S1).2 =
      S1.note (.call (.execOutput (H.rootPath ++ H.NPM) ["-v"])) := by
    simp only [getGlobalNPMVer]
    split <;> rfl
  have hnot : ¬ fmt remote > fmt (getGlobalNPMVer H S1).1 := not_lt.mpr hle
  have key : InstallNPM H fmt S version =
      if fmt remote < fmt (getGlobalNPMVer H S1).1 then
        (Outcome.remoteOlder, (getGlobalNPMVer H S1).2)
      else (Outcome.same, (getGlobalNPMVer H S1).2) := by
    simp only [InstallNPM, hv, if_true, hr, if_neg hnot]
  rw [key, hg, hS1]
  refine ⟨?_, ?_, ?_, ?_, ?_, ?_⟩
  · split
    · exact Or.inl rfl
    · exact Or.inr rfl
  · split <;> rfl
  · split <;> rfl
  · split <;> simp [stepsOf_append, stepsOf]
  · split <;> simp
  · intro c hc
    simp only [List.mem_cons, List.mem_singleton, List.not_mem_nil, or_false] at hc
    rcases hc with h | h | h | h <;> subst h <;> rfl

/-- Witness for C2 on the simulated machine: the remote label formats to no
more than the local one. -/
theorem InstallNPM_latest_not_newer_witness :
    (InstallNPM (sampleSim noFault).host (fun _ => (0 : Nat)) (Sys.init sampleDisk) "Latest").2.os
      = sampleDisk :=
  (InstallNPM_latest_not_newer (sampleSim noFault).host (fun _ => (0 : Nat))
    (Sys.init sampleDisk) _ "Latest" "3.8.5" (by decide) rfl (le_refl _)).2.1

/-! ## Steps recorded by the methods

The methods of NPMDownload invoke primitives; only downloadNpm starts steps. -/

theorem steps_effect (S : Sys σ) (c : Call) (r : Option Err × σ) :
    stepsOf (S.effect c r).2.log = stepsOf S.log := by
  simp [stepsOf_append, stepsOf]

theorem steps_Download (H : Host σ) (S : Sys σ) (url name : String) :
    stepsOf (Download H S url name).2.log = stepsOf S.log := by
  simp [Download, stepsOf_append, stepsOf]

theorem steps_CreateModules (H : Host σ) (S : Sys σ) :
    stepsOf (CreateModules H S).log = stepsOf S.log := by
  simp only [CreateModules]
  split <;> simp [stepsOf_append, stepsOf]

theorem steps_Clean (H : Host σ) (S : Sys σ) (path : String) :
    stepsOf (Clean H S path).2.log = stepsOf S.log := by
  simp only [Clean]
  split <;> simp [stepsOf_append, stepsOf]

theorem steps_cleanEach (H : Host σ) (ps : List String) (S : Sys σ) :
    stepsOf (cleanEach H ps S).2.log = stepsOf S.log := by
  induction ps generalizing S with
  | nil => rfl
  | cons v rest ih =>
    simp only [cleanEach]
    have h := steps_Clean H S v
    split
    · rename_i e S1 heq
      rw [heq] at h
      exact h
    · rename_i S1 heq
      rw [heq] at h
      rw [ih S1]
      exact h

theorem steps_CleanAll (H : Host σ) (S : Sys σ) :
    stepsOf (CleanAll H S).2.log = stepsOf S.log :=
  steps_cleanEach H _ S

theorem steps_extractAndWriteFile (H : Host σ) (S : Sys σ) (f : ZipFile) (idx : Nat) :
    stepsOf (extractAndWriteFile H S f idx).2.log = stepsOf S.log := by
  simp only [extractAndWriteFile, Sys.effect]
  split
  · simp [stepsOf_append, stepsOf]
  · split
    · simp [stepsOf_append, stepsOf, steps_assignRoot]
    · split
      · rename_i e S3 heq
        simp only [Prod.mk.injEq] at heq
        simp [stepsOf_append, stepsOf, ← heq.2, steps_assignRoot]
      · rename_i S3 heq
        simp only [Prod.mk.injEq] at heq
        split
        · rename_i e S4 heq4
          simp only [Prod.mk.injEq] at heq4
          simp [stepsOf_append, stepsOf, ← heq.2, ← heq4.2, steps_assignRoot]
        · rename_i S4 heq4
          simp only [Prod.mk.injEq] at heq4
          simp [stepsOf_append, stepsOf, ← heq.2, ← heq4.2, steps_assignRoot]

theorem steps_unzipLoop (H : Host σ) (files : List ZipFile) (idx : Nat) (S : Sys σ) :
    stepsOf (unzipLoop H files idx S).2.log = stepsOf S.log := by
  induction files generalizing idx S with
  | nil => rfl
  | cons f rest ih =>
    simp only [unzipLoop]
    have h := steps_extractAndWriteFile H S f idx
    split
    · rename_i code e S1 heq
      rw [heq] at h
      exact h
    · rename_i code S1 heq
      rw [heq] at h
      rw [ih (idx + 1) S1]
      exact h

theorem steps_Unzip (H : Host σ) (S : Sys σ) :
    stepsOf (Unzip H S).2.log = stepsOf S.log := by
  simp only [Unzip]
  split
  · simp [stepsOf_append, stepsOf]
  · simp [stepsOf_append, stepsOf, steps_unzipLoop]

theorem steps_copyFile (H : Host σ) (S : Sys σ) (src dst name : String) :
    stepsOf (copyFile H S src dst name).2.log = stepsOf S.log := by
  simp only [copyFile]
  split
  · simp [stepsOf_append, stepsOf]
  · split
    · rename_i e S2 h2
      have h2 := congrArg (fun x => x.2.log) h2
      simp only [effect_log] at h2
      simp [stepsOf_append, stepsOf, ← h2]
    · rename_i S2 h2
      have h2 := congrArg (fun x => x.2.log) h2
      simp only [effect_log] at h2
      split
      · rename_i e S3 h3
        have h3 := congrArg (fun x => x.2.log) h3
        simp only [effect_log] at h3
        simp [stepsOf_append, stepsOf, ← h2, ← h3]
      · rename_i S3 h3
        have h3 := congrArg (fun x => x.2.log) h3
        simp only [effect_log] at h3
        split
        · rename_i e S4 h4
          have h4 := congrArg (fun x => x.2.log) h4
          simp only [effect_log] at h4
          simp [stepsOf_append, stepsOf, ← h2, ← h3, ← h4]
        · rename_i S4 h4
          have h4 := congrArg (fun x => x.2.log) h4
          simp only [effect_log] at h4
          simp [stepsOf_append, stepsOf, ← h2, ← h3, ← h4]

theorem steps_Exec (H : Host σ) (S : Sys σ) :
    stepsOf (Exec H S).2.log = stepsOf S.log := by
  simp only [Exec]
  split
  · rename_i e S1 h1
    have h1 := congrArg (fun x => x.2.log) h1
    simp only [effect_log] at h1
    simp [stepsOf_append, stepsOf, ← h1]
  · rename_i S1 h1
    have h1 := congrArg (fun x => x.2.log) h1
    simp only [effect_log] at h1
    have c1 := steps_copyFile H S1 S.npm.npmbin S.npm.root S.npm.command1
    split
    · rename_i e S2 h2
      rw [h2] at c1
      simp [c1, ← h1, stepsOf_append, stepsOf]
    · rename_i S2 h2
      rw [h2] at c1
      have c2 := steps_copyFile H S2 S.npm.npmbin S.npm.root S.npm.command2
      split
      · rename_i e S3 h3
        rw [h3] at c2
        simp [c2, c1, ← h1, stepsOf_append, stepsOf]
      · rename_i S3 h3
        rw [h3] at c2
        simp [c2, c1, ← h1, stepsOf_append, stepsOf]

/-! ## downloadNpm: order of the steps and short-circuit -/

/-- C3 as stated fails: on a machine where the Mkdir of CreateModules is
refused, every later step (CleanAll, Unzip, Exec, Clean) is still executed. -/
theorem downloadNpm_continues_after_failed_mkdir :
    (∀ d : Disk, (((sampleSim (failOn (.mkdir "/tmp/x/node_modules") "denied")).host).mkdir d
        "/tmp/x/node_modules").1 = some "denied") ∧
    Event.call (Call.mkdir "/tmp/x/node_modules") ∈
      (downloadNpm (sampleSim (failOn (.mkdir "/tmp/x/node_modules") "denied")).host
        (Sys.init sampleDisk) "3.8.5").2.log ∧
    stepsOf (downloadNpm (sampleSim (failOn (.mkdir "/tmp/x/node_modules") "denied")).host
        (Sys.init sampleDisk) "3.8.5").2.log =
      [Step.download, Step.createModules, Step.cleanAll, Step.unzip, Step.exec, Step.clean] := by
  refine ⟨fun d => rfl, by decide, by decide⟩

/-- C3, amended: the steps of downloadNpm start in the order Download,
CreateModules, CleanAll, Unzip, Exec, Clean. When Download, Unzip or Exec
fails, the run stops before any later step starts. CreateModules hands no
failure to its caller: whatever its Mkdir answers, the run goes on. The cases
after Download are stated for a CleanAll that returns no error. -/
theorem downloadNpm_steps (H : Host σ) (S : Sys σ) (version : String) :
    let d := Download H ((New H S (zipNameOf version)).note (.step .download))
      (urlOf H S.os version) (zipNameOf version)
    let ca := CleanAll H ((CreateModules H (d.2.note (.step .createModules))).note (.step .cleanAll))
    let u := Unzip H (ca.2.note (.step .unzip))
    let x := Exec H (u.2.note (.step .exec))
    let r := downloadNpm H S version
    (∀ e, d.1 = some e →
      r = (DlOutcome.downloadFailed e, d.2) ∧
      stepsOf r.2.log = stepsOf S.log ++ [Step.download]) ∧
    (d.1 = none → ca.1 = none → ∀ e, u.1.2 = some e →
      r = (DlOutcome.unzipFailed u.1.1 e, u.2) ∧
      stepsOf r.2.log =
        stepsOf S.log ++ [Step.download, Step.createModules, Step.cleanAll, Step.unzip]) ∧
    (d.1 = none → ca.1 = none → u.1.2 = none → ∀ e, x.1 = some e →
      r = (DlOutcome.execFailed e, x.2) ∧
      stepsOf r.2.log =
        stepsOf S.log ++ [Step.download, Step.createModules, Step.cleanAll, Step.unzip,
          Step.exec]) ∧
    (d.1 = none → ca.1 = none → u.1.2 = none → x.1 = none →
      (∃ c, r.1 = DlOutcome.done c) ∧
      stepsOf r.2.log =
        stepsOf S.log ++ [Step.download, Step.createModules, Step.cleanAll, Step.unzip,
          Step.exec, Step.clean]) := by
  intro d ca u x r
  have hd : stepsOf d.2.log = stepsOf S.log ++ [Step.download] := by
    simp only [d, steps_Download, note_log, stepsOf_append]
    simp [New, stepsOf]
  have hca : stepsOf ca.2.log =
      stepsOf S.log ++ [Step.download, Step.createModules, Step.cleanAll] := by
    simp only [ca, steps_CleanAll, note_log, stepsOf_append, steps_CreateModules, hd]
    simp [stepsOf]
  have hu : stepsOf u.2.log =
      stepsOf S.log ++ [Step.download, Step.createModules, Step.cleanAll, Step.unzip] := by
    simp only [u, steps_Unzip, note_log, stepsOf_append, hca]
    simp [stepsOf]
  have hx : stepsOf x.2.log =
      stepsOf S.log ++ [Step.download, Step.createModules, Step.cleanAll, Step.unzip,
        Step.exec] := by
    simp only [x, steps_Exec, note_log, stepsOf_append, hu]
    simp [stepsOf]
  refine ⟨?_, ?_, ?_, ?_⟩
  · intro e he
    have hr : r = (DlOutcome.downloadFailed e, d.2) := by
      have hd2 : d = (some e, d.2) := Prod.ext he rfl
      simp only [r, downloadNpm]
      rw [show Download H ((New H S (zipNameOf version)).note (.step .download))
        (urlOf H S.os version) (zipNameOf version) = d from rfl, hd2]
    exact ⟨hr, by rw [hr]; exact hd⟩
  · intro h1 _ e he
    have hr : r = (DlOutcome.unzipFailed u.1.1 e, u.2) := by
      have hd2 : d = (none, d.2) := Prod.ext h1 rfl
      have hu2 : u = ((u.1.1, some e), u.2) := Prod.ext (Prod.ext rfl he) rfl
      simp only [r, downloadNpm]
      rw [show Download H ((New H S (zipNameOf version)).note (.step .download))
        (urlOf H S.os version) (zipNameOf version) = d from rfl, hd2]
      simp only []
      rw [show Unzip H ((CleanAll H ((CreateModules H (d.2.note (.step .createModules))).note
        (.step .cleanAll))).2.note (.step .unzip)) = u from rfl, hu2]
    exact ⟨hr, by rw [hr]; exact hu⟩
  · intro h1 _ h3 e he
    have hr : r = (DlOutcome.execFailed e, x.2) := by
      have hd2 : d = (none, d.2) := Prod.ext h1 rfl
      have hu2 : u = ((u.1.1, none), u.2) := Prod.ext (Prod.ext rfl h3) rfl
      have hx2 : x = (some e, x.2) := Prod.ext he rfl
      simp only [r, downloadNpm]
      rw [show Download H ((New H S (zipNameOf version)).note (.step .download))
        (urlOf H S.os version) (zipNameOf version) = d from rfl, hd2]
      simp only []
      rw [show Unzip H ((CleanAll H ((CreateModules H (d.2.note (.step .createModules))).note
        (.step .cleanAll))).2.note (.step .unzip)) = u from rfl, hu2]
      simp only []
      rw [show Exec H (u.2.note (.step .exec)) = x from rfl, hx2]
    exact ⟨hr, by rw [hr]; exact hx⟩
  · intro h1 _ h3 h4
    have hr : r = (DlOutcome.done (Clean H (x.2.note (.step .clean)) x.2.npm.zippath).1,
        (Clean H (x.2.note (.step .clean)) x.2.npm.zippath).2) := by
      have hd2 : d = (none, d.2) := Prod.ext h1 rfl
      have hu2 : u = ((u.1.1, none), u.2) := Prod.ext (Prod.ext rfl h3) rfl
      have hx2 : x = (none, x.2) := Prod.ext h4 rfl
      simp only [r, downloadNpm]
      rw [show Download H ((New H S (zipNameOf version)).note (.step .download))
        (urlOf H S.os version) (zipNameOf version) = d from rfl, hd2]
      simp only []
      rw [show Unzip H ((CleanAll H ((CreateModules H (d.2.note (.step .createModules))).note
        (.step .cleanAll))).2.note (.step .unzip)) = u from rfl, hu2]
      simp only []
      rw [show Exec H (u.2.note (.step .exec)) = x from rfl, hx2]
    refine ⟨⟨_, by rw [hr]⟩, ?_⟩
    rw [hr]
    simp only [steps_Clean, note_log, stepsOf_append, hx]
    simp [stepsOf]

/-- Witness for C3: on the fault-free sample machine all six steps start, in
order. -/
theorem downloadNpm_steps_witness :
    stepsOf (downloadNpm (sampleSim noFault).host (Sys.init sampleDisk) "3.8.5").2.log =
      [Step.download, Step.createModules, Step.cleanAll, Step.unzip, Step.exec, Step.clean] :=
  ((downloadNpm_steps (sampleSim noFault).host (Sys.init sampleDisk) "3.8.5").2.2.2
    (by decide) (by decide) (by decide) (by decide)).2

/-! ## Exec -/

/-- C6: Exec renames modules/ziproot to npmpath first. If the rename fails,
Exec returns that error in the state the rename left, whose log has gained the
rename call and nothing else. Otherwise it copies command1 (npm); if that copy
fails Exec returns its error in the state that copy left, so command2 (npm.cmd)
is not attempted; otherwise the result is that of copying command2. Exec
returns nil exactly when the rename and both copies return nil. -/
theorem Exec_spec (H : Host σ) (S : Sys σ) :
    let r := S.effect (.rename (S.npm.modules ++ H.DIVIDE ++ S.npm.ziproot) S.npm.npmpath)
      (H.rename S.os (S.npm.modules ++ H.DIVIDE ++ S.npm.ziproot) S.npm.npmpath)
    let c1 := copyFile H r.2 S.npm.npmbin S.npm.root S.npm.command1
    let c2 := copyFile H c1.2 S.npm.npmbin S.npm.root S.npm.command2
    (∀ e, r.1 = some e → Exec H S = (some e, r.2) ∧
      (Exec H S).2.log = S.log ++ [Event.call (.rename
        (S.npm.modules ++ H.DIVIDE ++ S.npm.ziproot) S.npm.npmpath)]) ∧
    (r.1 = none → ∀ e, c1.1 = some e → Exec H S = (some e, c1.2)) ∧
    (r.1 = none → c1.1 = none → Exec H S = c2) ∧
    ((Exec H S).1 = none ↔ r.1 = none ∧ c1.1 = none ∧ c2.1 = none) := by
  intro r c1 c2
  have hr : S.effect (.rename (S.npm.modules ++ H.DIVIDE ++ S.npm.ziproot) S.npm.npmpath)
      (H.rename S.os (S.npm.modules ++ H.DIVIDE ++ S.npm.ziproot) S.npm.npmpath) = r := rfl
  have hc1 : copyFile H r.2 S.npm.npmbin S.npm.root S.npm.command1 = c1 := rfl
  have hc2 : copyFile H c1.2 S.npm.npmbin S.npm.root S.npm.command2 = c2 := rfl
  have A : ∀ e, r.1 = some e → Exec H S = (some e, r.2) := by
    intro e he
    have h2 : r = (some e, r.2) := Prod.ext he rfl
    simp only [Exec]
    rw [hr, h2]
  have B : r.1 = none → ∀ e, c1.1 = some e → Exec H S = (some e, c1.2) := by
    intro h1 e he
    have h2 : r = (none, r.2) := Prod.ext h1 rfl
    have h3 : c1 = (some e, c1.2) := Prod.ext he rfl
    simp only [Exec]
    rw [hr, h2]
    simp only []
    rw [hc1, h3]
  have C : r.1 = none → c1.1 = none → Exec H S = c2 := by
    intro h1 h1c
    have h2 : r = (none, r.2) := Prod.ext h1 rfl
    have h3 : c1 = (none, c1.2) := Prod.ext h1c rfl
    simp only [Exec]
    rw [hr, h2]
    simp only []
    rw [hc1, h3]
    simp only []
    rw [hc2]
    rcases c2 with ⟨_ | e, S3⟩ <;> rfl
  refine ⟨fun e he => ⟨A e he, ?_⟩, B, C, ?_⟩
  · rw [A e he]
    rfl
  · constructor
    · intro h
      cases h1 : r.1 with
      | some e => rw [A e h1] at h; simp at h
      | none =>
        cases h2 : c1.1 with
        | some e => rw [B h1 e h2] at h; simp at h
        | none => rw [C h1 h2] at h; exact ⟨rfl, rfl, h⟩
    · rintro ⟨h1, h2, h3⟩
      rw [C h1 h2]
      exact h3

/-- Witness for C6: with the copy of npm refused at its create, Exec returns
that error and the log holds no call that names npm.cmd. -/
theorem Exec_spec_witness :
    (Exec (sampleSim (failOn (.osCreate "/tmp/x/npm") "denied")).host
      (Unzip (sampleSim noFault).host
        (New (sampleSim noFault).host
          (Sys.init (put sampleDisk ["tmp", "x", "v3.8.5.zip"] (Node.file [7])))
          "v3.8.5.zip")).2).1 = some "denied" :=
  congrArg Prod.fst
    ((Exec_spec (sampleSim (failOn (.osCreate "/tmp/x/npm") "denied")).host
      (Unzip (sampleSim noFault).host
        (New (sampleSim noFault).host
          (Sys.init (put sampleDisk ["tmp", "x", "v3.8.5.zip"] (Node.file [7])))
          "v3.8.5.zip")).2).2.1 (by decide) "denied" (by decide))

/-! ## Unzip -/

/-- An entry that cannot be opened returns -2 and does nothing else. -/
theorem eawf_fileOpen_fails (H : Host σ) (S : Sys σ) (f : ZipFile) (idx : Nat) (e : Err)
    (h : H.fileOpen S.os f = some e) :
    extractAndWriteFile H S f idx = ((-2, some e), S.note (.call (.fileOpen f.name))) := by
  simp only [extractAndWriteFile, h]

theorem eawf_dir (H : Host σ) (S : Sys σ) (f : ZipFile) (idx : Nat)
    (h : H.fileOpen S.os f = none) (hd : f.isDir = true) :
    (extractAndWriteFile H S f idx).1 = (0, none) := by
  simp only [extractAndWriteFile, h, hd, if_true]

theorem eawf_openFile_fails (H : Host σ) (S : Sys σ) (f : ZipFile) (idx : Nat) (e : Err)
    (h : H.fileOpen S.os f = none) (hd : f.isDir = false)
    (ho : (H.openFile S.os (H.join S.npm.modules f.name) f.mode).1 = some e) :
    (extractAndWriteFile H S f idx).1 = (-3, some e) := by
  simp only [extractAndWriteFile, h, hd, Sys.effect, assignRoot_os, note_os, ho]
  simp

theorem eawf_copy (H : Host σ) (S : Sys σ) (f : ZipFile) (idx : Nat)
    (h : H.fileOpen S.os f = none) (hd : f.isDir = false)
    (ho : (H.openFile S.os (H.join S.npm.modules f.name) f.mode).1 = none) :
    (extractAndWriteFile H S f idx).1 =
      match (H.copyEntry (H.openFile S.os (H.join S.npm.modules f.name) f.mode).2
          (H.join S.npm.modules f.name) f).1 with
      | some e => (-4, some e)
      | none => (0, none) := by
  simp only [extractAndWriteFile, h, hd, Sys.effect, assignRoot_os, note_os, ho]
  simp only [Bool.false_eq_true, if_false]
  cases (H.copyEntry (H.openFile S.os (H.join S.npm.modules f.name) f.mode).2
          (H.join S.npm.modules f.name) f).1 <;> rfl

/-- The code of one entry is zero exactly when its error is nil. -/
theorem eawf_code (H : Host σ) (S : Sys σ) (f : ZipFile) (idx : Nat) :
    ((extractAndWriteFile H S f idx).1.2 = none → (extractAndWriteFile H S f idx).1.1 = 0) ∧
    ((extractAndWriteFile H S f idx).1.2 ≠ none →
      (extractAndWriteFile H S f idx).1.1 = -2 ∨ (extractAndWriteFile H S f idx).1.1 = -3 ∨
      (extractAndWriteFile H S f idx).1.1 = -4) := by
  cases h : H.fileOpen S.os f with
  | some e => rw [eawf_fileOpen_fails H S f idx e h]; simp
  | none =>
    cases hd : f.isDir with
    | true => rw [eawf_dir H S f idx h hd]; simp
    | false =>
      cases ho : (H.openFile S.os (H.join S.npm.modules f.name) f.mode).1 with
      | some e => rw [eawf_openFile_fails H S f idx e h hd ho]; simp
      | none =>
        rw [eawf_copy H S f idx h hd ho]
        split <;> simp

theorem unzipLoop_code (H : Host σ) (files : List ZipFile) (idx : Nat) (S : Sys σ) :
    ((unzipLoop H files idx S).1.2 = none → (unzipLoop H files idx S).1.1 = 0) ∧
    ((unzipLoop H files idx S).1.2 ≠ none →
      (unzipLoop H files idx S).1.1 = -2 ∨ (unzipLoop H files idx S).1.1 = -3 ∨
      (unzipLoop H files idx S).1.1 = -4) := by
  induction files generalizing idx S with
  | nil => simp [unzipLoop]
  | cons f rest ih =>
    have h := eawf_code H S f idx
    simp only [unzipLoop]
    split
    · rename_i code e S1 heq
      rw [heq] at h
      simpa using h.2
    · rename_i code S1 heq
      exact ih (idx + 1) S1

/-- The loop stops at the first failing entry: the entries behind it play no
part in the result. -/
theorem unzipLoop_stops (H : Host σ) (pre : List ZipFile) (f : ZipFile) (post : List ZipFile)
    (idx : Nat) (S : Sys σ) (hpre : (unzipLoop H pre idx S).1.2 = none)
    (hf : (extractAndWriteFile H (unzipLoop H pre idx S).2 f (idx + pre.length)).1.2 ≠ none) :
    unzipLoop H (pre ++ f :: post) idx S =
      extractAndWriteFile H (unzipLoop H pre idx S).2 f (idx + pre.length) := by
  induction pre generalizing idx S with
  | nil =>
    simp only [unzipLoop, List.nil_append, List.length_nil, Nat.add_zero] at hf ⊢
    split
    · rename_i code e S1 heq
      rw [heq]
    · rename_i code S1 heq
      rw [heq] at hf
      exact absurd rfl hf
  | cons g pre ih =>
    simp only [unzipLoop, List.cons_append, List.length_cons] at hpre hf ⊢
    split
    · rename_i code e S1 heq
      rw [heq] at hpre
      simp at hpre
    · rename_i code S1 heq
      rw [heq] at hpre hf
      simp only [] at hpre hf
      have := ih (idx + 1) S1 hpre (by rw [show idx + 1 + pre.length = idx + (pre.length + 1) by omega]; exact hf)
      rw [show idx + 1 + pre.length = idx + (pre.length + 1) by omega] at this
      exact this

/-- The loop returns nil exactly when every entry, reached in order, does. -/
theorem unzipLoop_ok_iff (H : Host σ) (files : List ZipFile) (idx : Nat) (S : Sys σ) :
    (unzipLoop H files idx S).1.2 = none ↔
      ∀ pre f post, files = pre ++ f :: post →
        (extractAndWriteFile H (unzipLoop H pre idx S).2 f (idx + pre.length)).1.2 = none := by
  constructor
  · intro h pre f post hsplit
    by_contra hne
    by_cases hpre : (unzipLoop H pre idx S).1.2 = none
    · have := unzipLoop_stops H pre f post idx S hpre hne
      rw [hsplit, this] at h
      exact hne h
    · -- an earlier entry already failed: the loop over pre fails, so does the whole loop
      have hlen : pre.length < files.length := by rw [hsplit]; simp
      clear hne
      induction pre generalizing idx S files f post with
      | nil => simp [unzipLoop] at hpre
      | cons g pre ih =>
        subst hsplit
        simp only [unzipLoop, List.cons_append] at hpre h
        split at h
        · simp at h
        · rename_i code S1 heq
          rw [heq] at hpre
          simp only [] at hpre
          exact ih (pre ++ f :: post) (idx + 1) S1 h f post rfl hpre (by simp)
  · intro h
    induction files generalizing idx S with
    | nil => simp [unzipLoop]
    | cons g rest ih =>
      have h0 := h [] g rest rfl
      simp only [unzipLoop, List.length_nil, Nat.add_zero] at h0
      simp only [unzipLoop]
      split
      · rename_i code e S1 heq
        rw [heq] at h0
        simp at h0
      · rename_i code S1 heq
        apply ih
        intro pre f post hsplit
        have := h (g :: pre) f post (by rw [hsplit]; rfl)
        simp only [unzipLoop, heq, List.length_cons] at this
        rw [show idx + 1 + pre.length = idx + (pre.length + 1) by omega]
        exact this

/-- An entry returns nil exactly when none of its three primitives fails: the
open of the entry and, for a file, the create and the copy. -/
theorem eawf_ok_iff (H : Host σ) (S : Sys σ) (f : ZipFile) (idx : Nat) :
    (extractAndWriteFile H S f idx).1.2 = none ↔
      (H.fileOpen S.os f = none ∧
        (f.isDir = false →
          (H.openFile S.os (H.join S.npm.modules f.name) f.mode).1 = none ∧
          (H.copyEntry (H.openFile S.os (H.join S.npm.modules f.name) f.mode).2
            (H.join S.npm.modules f.name) f).1 = none)) := by
  constructor
  · intro h
    cases hfo : H.fileOpen S.os f with
    | some e =>
      rw [eawf_fileOpen_fails H S f idx e hfo] at h
      simp at h
    | none =>
      refine ⟨rfl, fun hd => ?_⟩
      cases ho : (H.openFile S.os (H.join S.npm.modules f.name) f.mode).1 with
      | some e =>
        rw [eawf_openFile_fails H S f idx e hfo hd ho] at h
        simp at h
      | none =>
        refine ⟨rfl, ?_⟩
        have hcp := eawf_copy H S f idx hfo hd ho
        cases hc : (H.copyEntry (H.openFile S.os (H.join S.npm.modules f.name) f.mode).2
            (H.join S.npm.modules f.name) f).1 with
        | some e =>
          rw [hc] at hcp
          rw [hcp] at h
          simp at h
        | none => rfl
  · rintro ⟨hfo, hrest⟩
    cases hd : f.isDir with
    | true => rw [eawf_dir H S f idx hfo hd]
    | false =>
      obtain ⟨ho, hc⟩ := hrest hd
      rw [eawf_copy H S f idx hfo hd ho, hc]

/-- C4: Unzip returns (-1, err) exactly when the archive cannot be opened, and
then does nothing else. Otherwise it takes the entries in archive order: at
the first entry one of whose primitives fails it returns -2 with the error of
the open of the entry, -3 with the error of the create of the destination
file, or -4 with the error of the copy, and the final state is the one that
entry left (plus the close of the archive), so no later entry is processed. It
returns (0, nil) exactly when the archive opens and, for every entry reached
in order, the open of the entry and, for a file, the create and the copy all
return nil; and the code is non-zero exactly when the error is non-nil. -/
theorem Unzip_codes (H : Host σ) (S : Sys σ) :
    let S1 := S.note (.call (.zipOpenReader S.npm.zippath))
    let ok := fun (st : Sys σ) (f : ZipFile) =>
      H.fileOpen st.os f = none ∧
      (f.isDir = false →
        (H.openFile st.os (H.join st.npm.modules f.name) f.mode).1 = none ∧
        (H.copyEntry (H.openFile st.os (H.join st.npm.modules f.name) f.mode).2
          (H.join st.npm.modules f.name) f).1 = none)
    (∀ e, H.zipOpenReader S.os S.npm.zippath = .error e → Unzip H S = ((-1, some e), S1)) ∧
    ((Unzip H S).1.1 = -1 → ∃ e, H.zipOpenReader S.os S.npm.zippath = .error e) ∧
    (∀ files pre f post, H.zipOpenReader S.os S.npm.zippath = .ok files →
      files = pre ++ f :: post →
      (∀ pre1 g post1, pre = pre1 ++ g :: post1 → ok (unzipLoop H pre1 0 S1).2 g) →
      let st := (unzipLoop H pre 0 S1).2
      let path := H.join st.npm.modules f.name
      let r := extractAndWriteFile H st f pre.length
      (¬ ok st f →
        (Unzip H S).2 = (r.2.effect (.close S.npm.zippath) (H.close r.2.os S.npm.zippath)).2) ∧
      (∀ e, H.fileOpen st.os f = some e → (Unzip H S).1 = (-2, some e)) ∧
      (∀ e, H.fileOpen st.os f = none → f.isDir = false →
        (H.openFile st.os path f.mode).1 = some e → (Unzip H S).1 = (-3, some e)) ∧
      (∀ e, H.fileOpen st.os f = none → f.isDir = false →
        (H.openFile st.os path f.mode).1 = none →
        (H.copyEntry (H.openFile st.os path f.mode).2 path f).1 = some e →
        (Unzip H S).1 = (-4, some e))) ∧
    ((Unzip H S).1 = (0, none) ↔
      ∃ files, H.zipOpenReader S.os S.npm.zippath = .ok files ∧
        ∀ pre f post, files = pre ++ f :: post → ok (unzipLoop H pre 0 S1).2 f) ∧
    ((Unzip H S).1.1 ≠ 0 ↔ (Unzip H S).1.2 ≠ none) := by
  intro S1 ok
  have hokiff : ∀ (st : Sys σ) (f : ZipFile) (idx : Nat),
      (extractAndWriteFile H st f idx).1.2 = none ↔ ok st f :=
    fun st f idx => eawf_ok_iff H st f idx
  have hU : ∀ files, H.zipOpenReader S.os S.npm.zippath = .ok files →
      Unzip H S =
        ((unzipLoop H files 0 S1).1,
         ((unzipLoop H files 0 S1).2.effect (.close S.npm.zippath)
           (H.close (unzipLoop H files 0 S1).2.os S.npm.zippath)).2) := by
    intro files h
    simp only [Unzip, h, S1]
  have hE : ∀ e, H.zipOpenReader S.os S.npm.zippath = .error e →
      Unzip H S = ((-1, some e), S1) := by
    intro e h
    simp only [Unzip, h, S1]
  have hloop : ∀ files, (unzipLoop H files 0 S1).1.2 = none ↔
      ∀ pre f post, files = pre ++ f :: post → ok (unzipLoop H pre 0 S1).2 f := by
    intro files
    rw [unzipLoop_ok_iff]
    constructor
    · intro h pre f post hs
      exact (hokiff _ f (0 + pre.length)).1 (h pre f post hs)
    · intro h pre f post hs
      exact (hokiff _ f (0 + pre.length)).2 (h pre f post hs)
  refine ⟨hE, ?_, ?_, ?_, ?_⟩
  · intro h
    cases ho : H.zipOpenReader S.os S.npm.zippath with
    | error e => exact ⟨e, rfl⟩
    | ok files =>
      rw [hU files ho] at h
      simp only [] at h
      have hc := unzipLoop_code H files 0 S1
      by_cases hn : (unzipLoop H files 0 S1).1.2 = none
      · rw [hc.1 hn] at h; omega
      · rcases hc.2 hn with h2 | h2 | h2 <;> rw [h2] at h <;> omega
  · intro files pre f post ho hsplit hpre st path r
    have hpre2 : (unzipLoop H pre 0 S1).1.2 = none := (hloop pre).2 hpre
    have hfail : r.1.2 ≠ none → Unzip H S =
        (r.1, (r.2.effect (.close S.npm.zippath) (H.close r.2.os S.npm.zippath)).2) := by
      intro hne
      have hstop := unzipLoop_stops H pre f post 0 S1 hpre2 (by simpa using hne)
      simp only [Nat.zero_add] at hstop
      rw [hU files ho, hsplit, hstop]
    refine ⟨?_, ?_, ?_, ?_⟩
    · intro hnot
      have hne : r.1.2 ≠ none := fun h => hnot ((hokiff st f pre.length).1 h)
      rw [hfail hne]
    · intro e he
      have hr : r.1 = (-2, some e) :=
        congrArg Prod.fst (eawf_fileOpen_fails H st f pre.length e he)
      rw [hfail (by rw [hr]; simp)]
      exact hr
    · intro e he hd hop
      have hr : r.1 = (-3, some e) := eawf_openFile_fails H st f pre.length e he hd hop
      rw [hfail (by rw [hr]; simp)]
      exact hr
    · intro e he hd hop hcp
      have hr : r.1 = (-4, some e) := by
        have := eawf_copy H st f pre.length he hd hop
        rw [this]
        show (match (H.copyEntry (H.openFile st.os path f.mode).2 path f).1 with
          | some e => ((-4 : Int), some e)
          | none => (0, none)) = (-4, some e)
        rw [hcp]
      rw [hfail (by rw [hr]; simp)]
      exact hr
  · constructor
    · intro h
      cases ho : H.zipOpenReader S.os S.npm.zippath with
      | error e => rw [hE e ho] at h; simp at h
      | ok files =>
        refine ⟨files, rfl, ?_⟩
        rw [hU files ho] at h
        have h2 : (unzipLoop H files 0 S1).1.2 = none := by
          simp only [] at h
          rw [h]
        exact (hloop files).1 h2
    · rintro ⟨files, ho, hall⟩
      rw [hU files ho]
      have h2 : (unzipLoop H files 0 S1).1.2 = none := (hloop files).2 hall
      have h1 := (unzipLoop_code H files 0 S1).1 h2
      exact Prod.ext h1 h2
  · cases ho : H.zipOpenReader S.os S.npm.zippath with
    | error e => rw [hE e ho]; simp
    | ok files =>
      rw [hU files ho]
      have hc := unzipLoop_code H files 0 S1
      constructor
      · intro h hn
        exact h (hc.1 hn)
      · intro hn h
        rcases hc.2 hn with h2 | h2 | h2 <;> rw [h2] at h <;> omega

/-- Witness for C4: with the copy of the third entry of the sample archive
refused, Unzip returns -4 and that error. -/
theorem Unzip_codes_witness :
    (Unzip (sampleSim (failOn
        (.copyEntry "/tmp/x/node_modules/npm-3.8.5/bin/npm" "npm-3.8.5/bin/npm") "disk full")).host
      (New (sampleSim noFault).host
        (Sys.init (put sampleDisk ["tmp", "x", "v3.8.5.zip"] (Node.file [7])))
        "v3.8.5.zip")).1 = (-4, some "disk full") :=
  ((Unzip_codes (sampleSim (failOn
        (.copyEntry "/tmp/x/node_modules/npm-3.8.5/bin/npm" "npm-3.8.5/bin/npm") "disk full")).host
      (New (sampleSim noFault).host
        (Sys.init (put sampleDisk ["tmp", "x", "v3.8.5.zip"] (Node.file [7])))
        "v3.8.5.zip")).2.2.1 sampleArchive
      [⟨"npm-3.8.5/", true, 493, []⟩, ⟨"npm-3.8.5/bin/", true, 493, []⟩]
      ⟨"npm-3.8.5/bin/npm", false, 420, [1, 2]⟩ [⟨"npm-3.8.5/bin/npm.cmd", false, 420, [3]⟩]
      rfl (by decide) (by
        intro pre1 g post1 h
        have hcases : (pre1 = [] ∧ g = ⟨"npm-3.8.5/", true, 493, []⟩) ∨
            (pre1 = [⟨"npm-3.8.5/", true, 493, []⟩] ∧ g = ⟨"npm-3.8.5/bin/", true, 493, []⟩) := by
          rcases pre1 with _ | ⟨a, _ | ⟨b, _ | ⟨c, t⟩⟩⟩
          · simp at h; exact Or.inl ⟨rfl, h.1.symm⟩
          · simp at h; exact Or.inr ⟨by rw [h.1], h.2.1.symm⟩
          · simp at h
          · simp at h
        rcases hcases with ⟨h1, h2⟩ | ⟨h1, h2⟩ <;> subst h1 <;> subst h2 <;>
          exact ⟨rfl, fun hd => absurd hd (by decide)⟩)).2.2.2 "disk full"
      rfl (by decide) (by decide) (by decide)

/-! ## The field ziproot -/

theorem assigns_effect (S : Sys σ) (c : Call) (r : Option Err × σ) :
    assignsOf (S.effect c r).2.log = assignsOf S.log := by
  simp [assignsOf_append, assignsOf]

theorem assigns_assignRoot_succ (S : Sys σ) (f : ZipFile) (idx : Nat) (h : idx ≠ 0) :
    assignRoot S f idx = S := by
  simp [assignRoot, h]

/-- From the second entry on, an entry neither assigns ziproot nor touches
npm. -/
theorem eawf_later (H : Host σ) (S : Sys σ) (f : ZipFile) (idx : Nat) (h : idx ≠ 0) :
    assignsOf (extractAndWriteFile H S f idx).2.log = assignsOf S.log ∧
    (extractAndWriteFile H S f idx).2.npm = S.npm := by
  simp only [extractAndWriteFile, Sys.effect, assigns_assignRoot_succ _ f idx h]
  split
  · simp [assignsOf_append, assignsOf]
  · split
    · simp [assignsOf_append, assignsOf]
    · split
      · rename_i e S3 heq
        simp only [Prod.mk.injEq] at heq
        simp [assignsOf_append, assignsOf, ← heq.2]
      · rename_i S3 heq
        simp only [Prod.mk.injEq] at heq
        split
        · rename_i e S4 heq4
          simp only [Prod.mk.injEq] at heq4
          simp [assignsOf_append, assignsOf, ← heq.2, ← heq4.2]
        · rename_i S4 heq4
          simp only [Prod.mk.injEq] at heq4
          simp [assignsOf_append, assignsOf, ← heq.2, ← heq4.2]

/-- The first entry, when it returns nil, assigns ziproot once, with its
name. -/
theorem eawf_first (H : Host σ) (S : Sys σ) (f : ZipFile)
    (hok : (extractAndWriteFile H S f 0).1.2 = none) :
    assignsOf (extractAndWriteFile H S f 0).2.log = assignsOf S.log ++ [f.name] ∧
    (extractAndWriteFile H S f 0).2.npm.ziproot = f.name := by
  revert hok
  simp only [extractAndWriteFile, Sys.effect, assignRoot, if_true]
  split
  · simp
  · split
    · simp [assignsOf_append, assignsOf]
    · split
      · simp
      · rename_i S3 heq
        simp only [Prod.mk.injEq] at heq
        split
        · simp
        · rename_i S4 heq4
          simp only [Prod.mk.injEq] at heq4
          simp [assignsOf_append, assignsOf, ← heq.2, ← heq4.2]

theorem unzipLoop_later (H : Host σ) (files : List ZipFile) (idx : Nat) (S : Sys σ)
    (h : idx ≠ 0) :
    assignsOf (unzipLoop H files idx S).2.log = assignsOf S.log ∧
    (unzipLoop H files idx S).2.npm = S.npm := by
  induction files generalizing idx S with
  | nil => exact ⟨rfl, rfl⟩
  | cons f rest ih =>
    have h1 := eawf_later H S f idx h
    simp only [unzipLoop]
    split
    · rename_i code e S1 heq
      rw [heq] at h1
      exact h1
    · rename_i code S1 heq
      rw [heq] at h1
      have h2 := ih (idx + 1) S1 (by omega)
      exact ⟨h2.1.trans h1.1, h2.2.trans h1.2⟩

theorem copyFile_log_extends (H : Host σ) (S : Sys σ) (src dst name : String) :
    ∃ l, (copyFile H S src dst name).2.log = S.log ++ l := by
  simp only [copyFile, Sys.effect]
  split
  · exact ⟨_, rfl⟩
  · split
    · rename_i e S2 h2
      simp only [Prod.mk.injEq] at h2
      exact ⟨_, by simp [← h2.2]; rfl⟩
    · rename_i S2 h2
      simp only [Prod.mk.injEq] at h2
      split
      · rename_i e S3 h3
        simp only [Prod.mk.injEq] at h3
        exact ⟨_, by simp [← h2.2, ← h3.2]; rfl⟩
      · rename_i S3 h3
        simp only [Prod.mk.injEq] at h3
        split
        · rename_i e S4 h4
          simp only [Prod.mk.injEq] at h4
          exact ⟨_, by simp [← h2.2, ← h3.2, ← h4.2]; rfl⟩
        · rename_i S4 h4
          simp only [Prod.mk.injEq] at h4
          exact ⟨_, by simp [← h2.2, ← h3.2, ← h4.2]; rfl⟩

/-- The first thing Exec does is the rename, whose source is built from the
field ziproot. -/
theorem Exec_log_starts (H : Host σ) (S : Sys σ) :
    ∃ tail, (Exec H S).2.log =
      S.log ++ Event.call (.rename (S.npm.modules ++ H.DIVIDE ++ S.npm.ziproot)
        S.npm.npmpath) :: tail := by
  simp only [Exec, Sys.effect]
  split
  · rename_i e S1 h1
    simp only [Prod.mk.injEq] at h1
    exact ⟨[], by simp [← h1.2]⟩
  · rename_i S1 h1
    simp only [Prod.mk.injEq] at h1
    have hS1 : S1.log = S.log ++ [Event.call (.rename
        (S.npm.modules ++ H.DIVIDE ++ S.npm.ziproot) S.npm.npmpath)] := by
      rw [← h1.2]
    obtain ⟨l1, hl1⟩ := copyFile_log_extends H S1 S.npm.npmbin S.npm.root S.npm.command1
    split
    · rename_i e S2 h2
      rw [h2] at hl1
      simp only [] at hl1
      exact ⟨l1, by rw [hl1, hS1]; simp⟩
    · rename_i S2 h2
      rw [h2] at hl1
      simp only [] at hl1
      obtain ⟨l2, hl2⟩ := copyFile_log_extends H S2 S.npm.npmbin S.npm.root S.npm.command2
      split
      · rename_i e S3 h3
        rw [h3] at hl2
        simp only [] at hl2
        exact ⟨l1 ++ l2, by rw [hl2, hl1, hS1]; simp⟩
      · rename_i S3 h3
        rw [h3] at hl2
        simp only [] at hl2
        exact ⟨l1 ++ l2, by rw [hl2, hl1, hS1]; simp⟩

/-- C5 as stated fails on an archive without entries: Unzip returns (0, nil),
ziproot is assigned zero times, and the value left for Exec is the one the
field held before the attempt. -/
theorem Unzip_empty_archive_assigns_nothing :
    (Unzip emptyArchiveSim.host
      (New emptyArchiveSim.host
        ⟨put sampleDisk ["tmp", "x", "v3.8.5.zip"] (Node.file [7]),
          { NPMDownload.zero with ziproot := "npm-3.8.4/" }, []⟩
        "v3.8.5.zip")).1 = (0, none) ∧
    assignsOf (Unzip emptyArchiveSim.host
      (New emptyArchiveSim.host
        ⟨put sampleDisk ["tmp", "x", "v3.8.5.zip"] (Node.file [7]),
          { NPMDownload.zero with ziproot := "npm-3.8.4/" }, []⟩
        "v3.8.5.zip")).2.log = [] ∧
    (Unzip emptyArchiveSim.host
      (New emptyArchiveSim.host
        ⟨put sampleDisk ["tmp", "x", "v3.8.5.zip"] (Node.file [7]),
          { NPMDownload.zero with ziproot := "npm-3.8.4/" }, []⟩
        "v3.8.5.zip")).2.npm.ziproot = "npm-3.8.4/" := by
  refine ⟨by decide, by decide, by decide⟩

/-- C5, amended: for every attempt (New followed by Unzip) on an archive with
at least one entry for which Unzip returns (0, nil), ziproot is assigned
exactly once during the attempt, the value being the name of the first entry;
that is the value the field holds afterwards, and the path Exec renames is
built from it. -/
theorem Unzip_assigns_ziproot_once (H : Host σ) (S : Sys σ) (zip : String)
    (first : ZipFile) (rest : List ZipFile)
    (hopen : H.zipOpenReader (New H S zip).os (New H S zip).npm.zippath = .ok (first :: rest))
    (hok : (Unzip H (New H S zip)).1 = (0, none)) :
    assignsOf (Unzip H (New H S zip)).2.log = assignsOf S.log ++ [first.name] ∧
    (Unzip H (New H S zip)).2.npm.ziproot = first.name ∧
    ∃ tail, (Exec H (Unzip H (New H S zip)).2).2.log =
      (Unzip H (New H S zip)).2.log ++
        Event.call (.rename ((Unzip H (New H S zip)).2.npm.modules ++ H.DIVIDE ++ first.name)
          (Unzip H (New H S zip)).2.npm.npmpath) :: tail := by
  have hU : Unzip H (New H S zip) =
      ((unzipLoop H (first :: rest) 0
          ((New H S zip).note (.call (.zipOpenReader (New H S zip).npm.zippath)))).1,
       ((unzipLoop H (first :: rest) 0
          ((New H S zip).note (.call (.zipOpenReader (New H S zip).npm.zippath)))).2.effect
          (.close (New H S zip).npm.zippath)
          (H.close (unzipLoop H (first :: rest) 0
            ((New H S zip).note (.call (.zipOpenReader (New H S zip).npm.zippath)))).2.os
            (New H S zip).npm.zippath)).2) := by
    simp only [Unzip, hopen]
  rw [hU] at hok
  simp only [] at hok
  have hloop : (unzipLoop H (first :: rest) 0
      ((New H S zip).note (.call (.zipOpenReader (New H S zip).npm.zippath)))).1.2 = none := by
    rw [hok]
  have h0 := (unzipLoop_ok_iff H (first :: rest) 0 _).1 hloop [] first rest rfl
  simp only [unzipLoop, List.length_nil, Nat.add_zero] at h0
  have hf := eawf_first H _ first h0
  have key : assignsOf (unzipLoop H (first :: rest) 0
        ((New H S zip).note (.call (.zipOpenReader (New H S zip).npm.zippath)))).2.log
        = assignsOf S.log ++ [first.name] ∧
      (unzipLoop H (first :: rest) 0
        ((New H S zip).note (.call (.zipOpenReader (New H S zip).npm.zippath)))).2.npm.ziproot
        = first.name := by
    simp only [unzipLoop]
    split
    · rename_i code e S1 heq
      rw [heq] at h0
      simp at h0
    · rename_i code S1 heq
      rw [heq] at hf
      have hl := unzipLoop_later H rest (0 + 1) S1 (by omega)
      refine ⟨?_, ?_⟩
      · rw [hl.1, hf.1]
        simp [New, assignsOf_append, assignsOf]
      · rw [hl.2, hf.2]
  have hz : (Unzip H (New H S zip)).2.npm.ziproot = first.name := by
    rw [hU]
    exact key.2
  refine ⟨?_, hz, ?_⟩
  · rw [hU]
    simp only [assigns_effect]
    exact key.1
  · have hx := Exec_log_starts H (Unzip H (New H S zip)).2
    rw [hz] at hx
    exact hx

/-- Witness for C5 on the sample archive: the one assignment is the name of
its first entry. -/
theorem Unzip_assigns_ziproot_once_witness :
    assignsOf (Unzip (sampleSim noFault).host
      (New (sampleSim noFault).host
        (Sys.init (put sampleDisk ["tmp", "x", "v3.8.5.zip"] (Node.file [7])))
        "v3.8.5.zip")).2.log = [] ++ ["npm-3.8.5/"] :=
  (Unzip_assigns_ziproot_once (sampleSim noFault).host
    (Sys.init (put sampleDisk ["tmp", "x", "v3.8.5.zip"] (Node.file [7]))) "v3.8.5.zip"
    ⟨"npm-3.8.5/", true, 493, []⟩
    [⟨"npm-3.8.5/bin/", true, 493, []⟩, ⟨"npm-3.8.5/bin/npm", false, 420, [1, 2]⟩,
      ⟨"npm-3.8.5/bin/npm.cmd", false, 420, [3]⟩]
    rfl (by decide)).1

/-! ## Paths on the simulated machine -/

theorem compsGo_append_sep (a b : List Char) (cur : List Char) :
    compsGo cur (a ++ '/' :: b) = compsGo cur a ++ compsGo [] b := by
  induction a generalizing cur with
  | nil =>
    simp only [List.nil_append, compsGo, if_true]
    split <;> simp
  | cons c a ih =>
    simp only [List.cons_append, compsGo]
    by_cases hc : c = '/'
    · simp only [hc, if_true]
      split
      · exact ih []
      · simp [ih []]
    · simp only [hc, if_false]
      exact ih (cur ++ [c])

/-- The pieces of two texts joined by a slash. -/
theorem pieces_sep (a b : String) : pieces (a ++ "/" ++ b) = pieces a ++ pieces b := by
  have h : (a ++ "/" ++ b).data = a.data ++ '/' :: b.data := by
    simp [String.data_append]
  simp only [pieces, h, compsGo_append_sep]

/-- A run of characters without a slash extends the piece being read. -/
theorem compsGo_word (cur l rest : List Char) (hl : '/' ∉ l) :
    compsGo cur (l ++ rest) = compsGo (cur ++ l) rest := by
  induction l generalizing cur with
  | nil => simp
  | cons c l ih =>
    have hc : c ≠ '/' := fun h => hl (by simp [h])
    have hl2 : '/' ∉ l := fun h => hl (by simp [h])
    simp only [List.cons_append, compsGo, hc, if_false]
    have := ih (cur ++ [c]) hl2
    simp only [List.append_assoc, List.singleton_append] at this
    exact this

/-- A non-empty text without a slash is its own single piece. -/
theorem pieces_name (s : String) (h : '/' ∉ s.data) (hne : s.data ≠ []) : pieces s = [s] := by
  have := compsGo_word [] s.data [] h
  simp only [List.append_nil, List.nil_append] at this
  simp only [pieces, this, compsGo, hne, if_false]

theorem resolveFrom_append (base : Path) (xs ys : List String) :
    resolveFrom base (xs ++ ys) = resolveFrom (resolveFrom base xs) ys := by
  induction xs generalizing base with
  | nil => rfl
  | cons c cs ih =>
    simp only [List.cons_append, resolveFrom]
    split
    · exact ih base
    · split
      · exact ih _
      · exact ih _

/-- Joining two texts with a slash: the second is walked from where the first
leads. -/
theorem comps_sep (a b : String) : comps (a ++ "/" ++ b) = resolveFrom (comps a) (pieces b) := by
  simp only [comps, pieces_sep, resolveFrom_append]

/-- Joining a plain name leads one step down. -/
theorem comps_sep_name (a b : String) (hb : pieces b = [b]) (h1 : b ≠ ".") (h2 : b ≠ "..") :
    comps (a ++ "/" ++ b) = comps a ++ [b] := by
  rw [comps_sep, hb]
  simp [resolveFrom, h1, h2]

theorem comps_node_modules (a : String) :
    comps (a ++ "/" ++ "node_modules") = comps a ++ ["node_modules"] :=
  comps_sep_name a "node_modules" (by decide) (by decide) (by decide)

theorem comps_npm (a : String) : comps (a ++ "/" ++ "npm") = comps a ++ ["npm"] :=
  comps_sep_name a "npm" (by decide) (by decide) (by decide)

theorem comps_npm_cmd (a : String) : comps (a ++ "/" ++ "npm.cmd") = comps a ++ ["npm.cmd"] :=
  comps_sep_name a "npm.cmd" (by decide) (by decide) (by decide)

theorem comps_bin (a : String) : comps (a ++ "/" ++ "bin") = comps a ++ ["bin"] :=
  comps_sep_name a "bin" (by decide) (by decide) (by decide)

/-- The archive name of a version without a slash is a plain name that begins
with the letter v. -/
theorem zipName_plain (version : String) (hv : '/' ∉ version.data) :
    pieces (zipNameOf version) = [zipNameOf version] ∧
    (∃ w, (zipNameOf version) = String.mk ('v' :: w)) := by
  have h : (zipNameOf version).data = 'v' :: (version.data ++ ZIP.data) := by
    simp [zipNameOf, String.data_append]
  refine ⟨pieces_name _ ?_ ?_, ⟨version.data ++ ZIP.data, ?_⟩⟩
  · rw [h]
    intro hmem
    simp only [List.mem_cons, List.mem_append] at hmem
    rcases hmem with h1 | h1 | h1
    · exact absurd h1 (by decide)
    · exact hv h1
    · exact absurd h1 (by decide)
  · rw [h]; simp
  · show zipNameOf version = String.mk ('v' :: (version.data ++ ZIP.data))
    rw [← h]

/-- A name that begins with v is none of the special pieces and none of the
names that CleanAll and Exec work on. -/
theorem vname_ne (w : List Char) :
    String.mk ('v' :: w) ≠ "." ∧ String.mk ('v' :: w) ≠ ".." ∧
    String.mk ('v' :: w) ≠ "node_modules" ∧ String.mk ('v' :: w) ≠ "npm" ∧
    String.mk ('v' :: w) ≠ "npm.cmd" := by
  refine ⟨?_, ?_, ?_, ?_, ?_⟩ <;> intro h <;> have h2 := congrArg String.data h <;>
    simp at h2

/-- The archive path of a version without a slash: one step below the root
folder. -/
theorem comps_zippath (root version : String) (hv : '/' ∉ version.data) :
    comps (root ++ "/" ++ zipNameOf version) = comps root ++ [zipNameOf version] := by
  obtain ⟨hp, w, hw⟩ := zipName_plain version hv
  have hn := vname_ne w
  rw [← hw] at hn
  exact comps_sep_name root _ hp hn.1 hn.2.1

theorem isPrefixOf_append_self (a x : Path) : a.isPrefixOf (a ++ x) = true := by
  rw [List.isPrefixOf_iff_prefix]
  exact List.prefix_append a x

theorem isPrefixOf_append_left (a b c : Path) :
    (a ++ b).isPrefixOf (a ++ c) = b.isPrefixOf c := by
  induction a with
  | nil => rfl
  | cons h t ih => simp [List.isPrefixOf, ih]

theorem zip_not_above (version : String) (hv : '/' ∉ version.data) (root : Path) (a : String)
    (rest : Path) (ha : a = "node_modules" ∨ a = "npm" ∨ a = "npm.cmd") :
    (root ++ [zipNameOf version]).isPrefixOf (root ++ a :: rest) = false := by
  obtain ⟨_, w, hw⟩ := zipName_plain version hv
  have hn := vname_ne w
  rw [← hw] at hn
  rw [isPrefixOf_append_left]
  simp only [List.isPrefixOf, Bool.and_eq_false_imp, beq_iff_eq]
  intro h
  rcases ha with h1 | h1 | h1 <;> rw [h1] at h
  · exact absurd h hn.2.2.1
  · exact absurd h hn.2.2.2.1
  · exact absurd h hn.2.2.2.2

theorem not_above_zip (version : String) (hv : '/' ∉ version.data) (root : Path) (a : String)
    (rest : Path) (ha : a = "node_modules" ∨ a = "npm" ∨ a = "npm.cmd") :
    (root ++ a :: rest).isPrefixOf (root ++ [zipNameOf version]) = false := by
  obtain ⟨_, w, hw⟩ := zipName_plain version hv
  have hn := vname_ne w
  rw [← hw] at hn
  rw [isPrefixOf_append_left]
  simp only [List.isPrefixOf, Bool.and_eq_false_imp, beq_iff_eq]
  intro h
  rcases ha with h1 | h1 | h1 <;> rw [h1] at h
  · exact absurd h.symm hn.2.2.1
  · exact absurd h.symm hn.2.2.2.1
  · exact absurd h.symm hn.2.2.2.2

/-! ### filepath.Join lands where the plain join lands -/

/-- The pieces of a text are non-empty and free of slashes. -/
theorem compsGo_pieces (cur l : List Char) (hcur : '/' ∉ cur) :
    ∀ c ∈ compsGo cur l, '/' ∉ c.data ∧ c.data ≠ [] := by
  induction l generalizing cur with
  | nil =>
    intro c hc
    simp only [compsGo] at hc
    split at hc
    · simp at hc
    · rename_i hne
      simp only [List.mem_singleton] at hc
      subst hc
      exact ⟨hcur, hne⟩
  | cons x l ih =>
    intro c hc
    simp only [compsGo] at hc
    split at hc
    · split at hc
      · exact ih [] (by simp) c hc
      · rename_i hne
        simp only [List.mem_cons] at hc
        rcases hc with h | h
        · subst h
          exact ⟨hcur, hne⟩
        · exact ih [] (by simp) c h
    · rename_i hx
      refine ih (cur ++ [x]) ?_ c hc
      intro hmem
      simp only [List.mem_append, List.mem_singleton] at hmem
      rcases hmem with h | h
      · exact hcur h
      · exact hx h.symm

/-- What a walk leaves: components of the start and walked names. -/
theorem resolveFrom_mem (P : String → Prop) (base : Path) (cs : List String)
    (hb : ∀ c ∈ base, P c) (hc : ∀ c ∈ cs, c ≠ "." → c ≠ ".." → P c) :
    ∀ c ∈ resolveFrom base cs, P c := by
  induction cs generalizing base with
  | nil => exact hb
  | cons x cs ih =>
    simp only [resolveFrom]
    split
    · exact ih base hb (fun c h => hc c (by simp [h]))
    · split
      · exact ih _ (fun c h => hb c (List.mem_of_mem_dropLast h)) (fun c h => hc c (by simp [h]))
      · rename_i h1 h2
        refine ih _ ?_ (fun c h => hc c (by simp [h]))
        intro c h
        simp only [List.mem_append, List.mem_singleton] at h
        rcases h with h | h
        · exact hb c h
        · subst h
          exact hc c (by simp) h1 h2

/-- The components of a resolved path are plain names. -/
theorem comps_plain (s : String) :
    ∀ c ∈ comps s, ('/' ∉ c.data ∧ c.data ≠ []) ∧ c ≠ "." ∧ c ≠ ".." := by
  apply resolveFrom_mem
  · simp
  · intro c hc h1 h2
    exact ⟨compsGo_pieces [] s.data (by simp) c hc, h1, h2⟩

theorem resolveFrom_plain (base p : Path) (hp : ∀ c ∈ p, c ≠ "." ∧ c ≠ "..") :
    resolveFrom base p = base ++ p := by
  induction p generalizing base with
  | nil => simp [resolveFrom]
  | cons c p ih =>
    have hc := hp c (by simp)
    simp only [resolveFrom, hc.1, hc.2, if_false]
    rw [ih _ (fun x hx => hp x (by simp [hx]))]
    simp

theorem pieces_renderGo (p : Path) (hp : ∀ c ∈ p, '/' ∉ c.data ∧ c.data ≠ []) :
    pieces (renderGo p) = p := by
  induction p with
  | nil => rfl
  | cons c p ih =>
    have hc := hp c (by simp)
    have ih2 := ih (fun x hx => hp x (by simp [hx]))
    have hd : (renderGo (c :: p)).data = '/' :: (c.data ++ (renderGo p).data) := by
      simp [renderGo, String.data_append]
    simp only [pieces] at ih2 ⊢
    rw [hd]
    simp only [compsGo, if_true]
    rw [compsGo_word [] c.data _ hc.1]
    simp only [List.nil_append]
    cases p with
    | nil =>
      simp only [renderGo]
      show compsGo c.data [] = [c]
      simp [compsGo, hc.2]
    | cons c2 p2 =>
      have hd2 : (renderGo (c2 :: p2)).data = '/' :: (c2.data ++ (renderGo p2).data) := by
        simp [renderGo, String.data_append]
      rw [hd2] at ih2 ⊢
      simp only [compsGo, if_true, hc.2, if_false] at ih2 ⊢
      rw [ih2]

/-- The clean text of a resolved path names that path. -/
theorem comps_render (s : String) : comps (render (comps s)) = comps s := by
  have hp := comps_plain s
  unfold render
  split
  · rename_i h
    rw [h]
    decide
  · show resolveFrom [] (pieces (renderGo (comps s))) = comps s
    rw [pieces_renderGo _ (fun c hc => (hp c hc).1),
      resolveFrom_plain [] _ (fun c hc => (hp c hc).2)]
    simp

theorem render_ne_empty (p : Path) : render p ≠ "" := by
  unfold render
  split
  · decide
  · cases p with
    | nil => contradiction
    | cons c cs =>
      intro h
      have := congrArg String.data h
      simp [renderGo, String.data_append] at this

/-- filepath.Join names the file that the two texts joined by a slash name,
and its text is not empty unless both are. -/
theorem comps_filepathJoin (a b : String) (h : ¬ (a = "" ∧ b = "")) :
    comps (filepathJoin a b) = comps (a ++ "/" ++ b) ∧ filepathJoin a b ≠ "" := by
  simp only [filepathJoin, h, if_false]
  exact ⟨comps_render _, render_ne_empty _⟩

theorem sep_ne_empty (a b : String) : a ++ "/" ++ b ≠ "" := by
  intro h
  have := congrArg String.data h
  simp [String.data_append] at this

/-! ## Effects of the primitives on the simulated disk -/

theorem guard_ok (m : Sim) (c : Call) (d : Disk) (r : Option Err × Disk)
    (h : (m.guard c d r).1 = none) : m.guard c d r = r ∧ r.1 = none := by
  unfold Sim.guard at h ⊢
  cases hf : m.fault c with
  | some e => simp [hf] at h
  | none =>
    rw [hf] at h
    exact ⟨rfl, h⟩

theorem guard_cases (m : Sim) (c : Call) (d : Disk) (r : Option Err × Disk) :
    (m.guard c d r).2 = d ∨ m.guard c d r = r := by
  unfold Sim.guard
  cases m.fault c with
  | some e => exact Or.inl rfl
  | none => exact Or.inr rfl

@[simp] theorem sim_close (m : Sim) (d : Disk) (p : String) : (m.host.close d p).2 = d := by
  rcases guard_cases m (.close p) d (none, d) with h | h
  · exact h
  · show (m.guard (.close p) d (none, d)).2 = d
    rw [h]

@[simp] theorem sim_sync (m : Sim) (d : Disk) (p : String) : (m.host.sync d p).2 = d := by
  rcases guard_cases m (.sync p) d (none, d) with h | h
  · exact h
  · show (m.guard (.sync p) d (none, d)).2 = d
    rw [h]

theorem look_of_ne_nil (d : Disk) (p : Path) (h : p ≠ []) : look d p = d p := by
  simp [look, h]

/-- RemoveAll leaves alone every path outside the tree it is given. -/
theorem removeAllPath_frame (d : Disk) (p : String) (q : Path)
    (h : (comps p).isPrefixOf q = false) : (removeAllPath d p).2 q = d q := by
  unfold removeAllPath
  split
  · rfl
  · split
    · rename_i hc
      rw [hc] at h
      simp [List.isPrefixOf] at h
    · simp [removeAllAt, h]

/-- A RemoveAll that returned nil on a non-empty text has emptied the path. -/
theorem removeAllPath_ok (d : Disk) (p : String) (hp : p ≠ "")
    (h : (removeAllPath d p).1 = none) :
    comps p ≠ [] ∧ (removeAllPath d p).2 = removeAllAt d (comps p) := by
  unfold removeAllPath at h ⊢
  simp only [hp, if_false] at h ⊢
  split
  · rename_i hc
    simp [hc] at h
  · rename_i hc
    exact ⟨hc, rfl⟩

/-- Clean leaves alone every path outside the tree it is given. -/
theorem sim_Clean_frame (m : Sim) (S : Sys Disk) (p : String) (q : Path)
    (h : (comps p).isPrefixOf q = false) : (Clean m.host S p).2.os q = S.os q := by
  simp only [Clean]
  split
  · simp only [effect_os, note_os]
    rcases guard_cases m (.removeAll p) S.os (removeAllPath S.os p) with hg | hg
    · show (m.guard (.removeAll p) S.os (removeAllPath S.os p)).2 q = S.os q
      rw [hg]
    · show (m.guard (.removeAll p) S.os (removeAllPath S.os p)).2 q = S.os q
      rw [hg]
      exact removeAllPath_frame S.os p q h
  · rfl

/-- Clean either leaves a path as it is or empties it. -/
theorem sim_Clean_same_or_none (m : Sim) (S : Sys Disk) (p : String) (q : Path) :
    (Clean m.host S p).2.os q = S.os q ∨ (Clean m.host S p).2.os q = none := by
  simp only [Clean]
  split
  · simp only [effect_os, note_os]
    rcases guard_cases m (.removeAll p) S.os (removeAllPath S.os p) with hg | hg
    · left
      show (m.guard (.removeAll p) S.os (removeAllPath S.os p)).2 q = S.os q
      rw [hg]
    · show (m.guard (.removeAll p) S.os (removeAllPath S.os p)).2 q = S.os q ∨
        (m.guard (.removeAll p) S.os (removeAllPath S.os p)).2 q = none
      rw [hg]
      unfold removeAllPath
      split
      · exact Or.inl rfl
      · split <;> (simp only [removeAllAt]; split <;> simp)
  · exact Or.inl rfl

/-- After a Clean that returned nil the path holds nothing. -/
theorem sim_Clean_ok_absent (m : Sim) (S : Sys Disk) (p : String) (hp : comps p ≠ [])
    (h : (Clean m.host S p).1 = none) : (Clean m.host S p).2.os (comps p) = none := by
  have hpe : p ≠ "" := by
    intro h0
    rw [h0] at hp
    exact hp (by decide)
  simp only [Clean] at h ⊢
  split at h
  · rename_i hex
    simp only [hex, if_true, effect_os, note_os]
    simp only [effect_fst, note_os] at h
    have hg := guard_ok m (.removeAll p) S.os (removeAllPath S.os p) h
    show (m.guard (.removeAll p) S.os (removeAllPath S.os p)).2 (comps p) = none
    rw [hg.1, (removeAllPath_ok S.os p hpe hg.2).2]
    simp [removeAllAt]
  · rename_i hex
    simp only [hex, if_false]
    have h2 : isDirExistAt S.os p = false := by simpa using hex
    simp only [isDirExistAt, look_of_ne_nil _ _ hp] at h2
    simpa [hpe] using h2

theorem sim_cleanEach_frame (m : Sim) (ps : List String) (S : Sys Disk) (q : Path)
    (h : ∀ p ∈ ps, (comps p).isPrefixOf q = false) : (cleanEach m.host ps S).2.os q = S.os q := by
  induction ps generalizing S with
  | nil => rfl
  | cons v rest ih =>
    have hv := sim_Clean_frame m S v q (h v (by simp))
    simp only [cleanEach]
    split
    · rename_i e S1 heq
      rw [heq] at hv
      exact hv
    · rename_i S1 heq
      rw [heq] at hv
      rw [ih S1 (fun p hp => h p (by simp [hp]))]
      exact hv

theorem sim_cleanEach_same_or_none (m : Sim) (ps : List String) (S : Sys Disk) (q : Path) :
    (cleanEach m.host ps S).2.os q = S.os q ∨ (cleanEach m.host ps S).2.os q = none := by
  induction ps generalizing S with
  | nil => exact Or.inl rfl
  | cons v rest ih =>
    have hv := sim_Clean_same_or_none m S v q
    simp only [cleanEach]
    split
    · rename_i e S1 heq
      rw [heq] at hv
      exact hv
    · rename_i S1 heq
      rw [heq] at hv
      rcases ih S1 with h | h
      · rw [h]; exact hv
      · exact Or.inr h

/-- CreateModules changes no path that holds something. -/
theorem sim_CreateModules_frame (m : Sim) (S : Sys Disk) (q : Path) (h : S.os q ≠ none) :
    (CreateModules m.host S).os q = S.os q := by
  simp only [CreateModules]
  split
  · rfl
  · rename_i hex
    simp only [effect_os, note_os]
    have h2 : isDirExistAt S.os S.npm.modules = false := by simpa using hex
    rcases guard_cases m (.mkdir S.npm.modules) S.os (onPath S.npm.modules S.os (mkdirAt S.os))
      with hg | hg
    · show (m.guard (.mkdir S.npm.modules) S.os (onPath S.npm.modules S.os (mkdirAt S.os))).2 q = _
      rw [hg]
    · show (m.guard (.mkdir S.npm.modules) S.os (onPath S.npm.modules S.os (mkdirAt S.os))).2 q = _
      rw [hg]
      unfold onPath
      split
      · rfl
      · rename_i hne
        simp only [isDirExistAt, hne, ne_eq, not_false_eq_true, decide_True, Bool.true_and] at h2
        simp only [mkdirAt, h2]
        simp only [Bool.false_eq_true, if_false]
        split
        · simp only [put]
          split
          · rename_i hq
            subst hq
            exfalso
            simp only [look] at h2
            split at h2
            · simp at h2
            · simp at h2
              exact h h2
          · rfl
        · rfl

/-- Creating a file either succeeds, leaving an empty file there, or fails and
changes nothing. -/
theorem createAt_cases (d : Disk) (p : Path) :
    createAt d p = (none, put d p (Node.file [])) ∨ ∃ e, createAt d p = (some e, d) := by
  unfold createAt
  split
  · exact Or.inr ⟨_, rfl⟩
  · split
    · exact Or.inl rfl
    · exact Or.inr ⟨_, rfl⟩

/-- A Download that returned nil has written the bytes of the remote resource
to root/name. -/
theorem sim_Download_ok (m : Sim) (S : Sys Disk) (url name : String)
    (h : (Download m.host S url name).1 = none) :
    ∃ bytes, m.remote url = some bytes ∧
      (createAt S.os (comps (S.npm.root ++ "/" ++ name))).1 = none ∧
      (Download m.host S url name).2.os =
        put (put S.os (comps (S.npm.root ++ "/" ++ name)) (Node.file []))
          (comps (S.npm.root ++ "/" ++ name)) (Node.file bytes) := by
  simp only [Download, effect_fst, effect_os] at h ⊢
  have hg := (guard_ok m (.curlNew url name name S.npm.root) S.os
    (curlNewAt m S.os url name S.npm.root) h)
  show ∃ bytes, m.remote url = some bytes ∧ _ ∧
    (m.guard (.curlNew url name name S.npm.root) S.os
      (curlNewAt m S.os url name S.npm.root)).2 = _
  rw [hg.1]
  have h2 := hg.2
  simp only [curlNewAt] at h2 ⊢
  cases hr : m.remote url with
  | none => simp [hr] at h2
  | some bytes =>
    refine ⟨bytes, rfl, ?_⟩
    simp only [hr] at h2 ⊢
    rcases createAt_cases S.os (comps (S.npm.root ++ "/" ++ name)) with hc | ⟨e, hc⟩
    · rw [hc]
      exact ⟨rfl, rfl⟩
    · rw [hc] at h2
      simp at h2

/-- Download writes to root/name and nowhere else. -/
theorem sim_Download_frame (m : Sim) (S : Sys Disk) (url name : String) (q : Path)
    (hq : q ≠ comps (S.npm.root ++ "/" ++ name)) :
    (Download m.host S url name).2.os q = S.os q := by
  simp only [Download, effect_os]
  rcases guard_cases m (.curlNew url name name S.npm.root) S.os
    (curlNewAt m S.os url name S.npm.root) with hg | hg
  · show (m.guard (.curlNew url name name S.npm.root) S.os
      (curlNewAt m S.os url name S.npm.root)).2 q = _
    rw [hg]
  · show (m.guard (.curlNew url name name S.npm.root) S.os
      (curlNewAt m S.os url name S.npm.root)).2 q = _
    rw [hg]
    simp only [curlNewAt]
    split
    · rfl
    · rcases createAt_cases S.os (comps (S.npm.root ++ "/" ++ name)) with hc | ⟨e, hc⟩
      · rw [hc]
        simp [put, hq]
      · rw [hc]

/-! ## Clean -/

/-- C7 as stated fails: on a disk where the path exists and its removal is
refused, the first call of Clean returns the error and so does the second. -/
theorem Clean_twice_fails_when_removal_refused :
    (Clean (sampleSim (failOn (.removeAll "/tmp/x") "denied")).host
      (Sys.init sampleDisk) "/tmp/x").1 = some "denied" ∧
    (Clean (sampleSim (failOn (.removeAll "/tmp/x") "denied")).host
      (Clean (sampleSim (failOn (.removeAll "/tmp/x") "denied")).host
        (Sys.init sampleDisk) "/tmp/x").2 "/tmp/x").1 = some "denied" := by
  refine ⟨by decide, by decide⟩

/-- On the simulated machine a path whose removal returned nil is reported
absent afterwards. -/
theorem sim_removeAll_then_absent (m : Sim) (path : String) (d : Disk)
    (hex : m.host.isDirExist d path = true)
    (hok : (m.host.removeAll d path).1 = none) :
    m.host.isDirExist (m.host.removeAll d path).2 path = false := by
  have hpe : path ≠ "" := by
    intro h0
    have : isDirExistAt d path = true := hex
    simp [isDirExistAt, h0] at this
  have hg := guard_ok m (.removeAll path) d (removeAllPath d path) hok
  have hr := removeAllPath_ok d path hpe hg.2
  show isDirExistAt (m.guard (.removeAll path) d (removeAllPath d path)).2 path = false
  rw [hg.1, hr.2]
  simp [isDirExistAt, look, hr.1, removeAllAt]

/-- C7, amended: for every path, every state of the simulated file system and
every fault table, when Clean(path) is called twice in succession and the
first call returns no error, the second call returns no error, removes nothing
(it only asks whether the path exists) and leaves the file system as the first
call left it; and Clean on a path that does not exist (the empty text, or a
path that holds nothing) returns nil and leaves the file system unchanged. -/
theorem Clean_idempotent (m : Sim) (S : Sys Disk) (path : String) :
    ((Clean m.host S path).1 = none →
      Clean m.host (Clean m.host S path).2 path =
        (none, (Clean m.host S path).2.note (.call (.isDirExist path)))) ∧
    (path = "" ∨ look S.os (comps path) = none →
      Clean m.host S path = (none, S.note (.call (.isDirExist path)))) := by
  have absent : ∀ T : Sys Disk, m.host.isDirExist T.os path = false →
      Clean m.host T path = (none, T.note (.call (.isDirExist path))) := by
    intro T hT
    simp [Clean, hT]
  refine ⟨?_, ?_⟩
  · intro h1
    apply absent
    by_cases hex : m.host.isDirExist S.os path = true
    · have hc : Clean m.host S path =
          (S.note (.call (.isDirExist path))).effect (.removeAll path)
            (m.host.removeAll S.os path) := by
        simp [Clean, hex]
      rw [hc] at h1 ⊢
      exact sim_removeAll_then_absent m path S.os hex h1
    · have hex2 : m.host.isDirExist S.os path = false := by simpa using hex
      rw [absent S hex2]
      exact hex2
  · intro h
    apply absent
    show isDirExistAt S.os path = false
    rcases h with h | h
    · simp [isDirExistAt, h]
    · simp [isDirExistAt, h]

/-- Witness for C7: the archive of the sample machine is removed by the first
call; the second call only asks whether it exists. -/
theorem Clean_idempotent_witness :
    Clean (sampleSim noFault).host
      (Clean (sampleSim noFault).host
        (Sys.init (put sampleDisk ["tmp", "x", "v3.8.5.zip"] (Node.file [7])))
        "/tmp/x/v3.8.5.zip").2 "/tmp/x/v3.8.5.zip" =
      (none, (Clean (sampleSim noFault).host
        (Sys.init (put sampleDisk ["tmp", "x", "v3.8.5.zip"] (Node.file [7])))
        "/tmp/x/v3.8.5.zip").2.note (.call (.isDirExist "/tmp/x/v3.8.5.zip"))) :=
  (Clean_idempotent (sampleSim noFault)
    (Sys.init (put sampleDisk ["tmp", "x", "v3.8.5.zip"] (Node.file [7])))
    "/tmp/x/v3.8.5.zip").1 (by decide)

/-! ## The steps, primitive by primitive -/

/-- What an entry that returned nil did to the machine, primitive by
primitive. -/
theorem eawf_ok_os (H : Host σ) (S : Sys σ) (g : ZipFile) (idx : Nat)
    (hok : (extractAndWriteFile H S g idx).1.2 = none) :
    H.fileOpen S.os g = none ∧
    (g.isDir = true → (extractAndWriteFile H S g idx).2.os =
      (H.close (H.mkdirAll S.os (H.join S.npm.modules g.name) g.mode).2 g.name).2) ∧
    (g.isDir = false →
      (H.openFile S.os (H.join S.npm.modules g.name) g.mode).1 = none ∧
      (H.copyEntry (H.openFile S.os (H.join S.npm.modules g.name) g.mode).2
        (H.join S.npm.modules g.name) g).1 = none ∧
      (extractAndWriteFile H S g idx).2.os =
        (H.close (H.close (H.copyEntry (H.openFile S.os (H.join S.npm.modules g.name) g.mode).2
          (H.join S.npm.modules g.name) g).2 (H.join S.npm.modules g.name)).2 g.name).2) := by
  cases hfo : H.fileOpen S.os g with
  | some e =>
    rw [eawf_fileOpen_fails H S g idx e hfo] at hok
    simp at hok
  | none =>
    refine ⟨rfl, ?_, ?_⟩
    · intro hd
      simp only [extractAndWriteFile, hfo, hd, if_true, Sys.effect, assignRoot_os, note_os]
    · intro hd
      cases ho : (H.openFile S.os (H.join S.npm.modules g.name) g.mode).1 with
      | some e =>
        rw [eawf_openFile_fails H S g idx e hfo hd ho] at hok
        simp at hok
      | none =>
        have hcp := eawf_copy H S g idx hfo hd ho
        cases hc : (H.copyEntry (H.openFile S.os (H.join S.npm.modules g.name) g.mode).2
            (H.join S.npm.modules g.name) g).1 with
        | some e =>
          rw [hc] at hcp
          rw [hcp] at hok
          simp at hok
        | none =>
          refine ⟨rfl, rfl, ?_⟩
          simp only [extractAndWriteFile, hfo, hd, Sys.effect, assignRoot_os, note_os, ho, hc]
          simp

/-- The methods leave the path fields of npm alone. -/
theorem eawf_modules (H : Host σ) (S : Sys σ) (g : ZipFile) (idx : Nat) :
    (extractAndWriteFile H S g idx).2.npm.modules = S.npm.modules := by
  simp only [extractAndWriteFile, Sys.effect]
  split
  · rfl
  · split
    · simp
    · split
      · rename_i e S3 heq
        simp only [Prod.mk.injEq] at heq
        simp [← heq.2]
      · rename_i S3 heq
        simp only [Prod.mk.injEq] at heq
        split
        · rename_i e S4 heq4
          simp only [Prod.mk.injEq] at heq4
          simp [← heq.2, ← heq4.2]
        · rename_i S4 heq4
          simp only [Prod.mk.injEq] at heq4
          simp [← heq.2, ← heq4.2]

theorem unzipLoop_modules (H : Host σ) (files : List ZipFile) (idx : Nat) (S : Sys σ) :
    (unzipLoop H files idx S).2.npm.modules = S.npm.modules := by
  induction files generalizing idx S with
  | nil => rfl
  | cons f rest ih =>
    have h := eawf_modules H S f idx
    simp only [unzipLoop]
    split
    · rename_i code e S1 heq
      rw [heq] at h
      exact h
    · rename_i code S1 heq
      rw [heq] at h
      rw [ih (idx + 1) S1]
      exact h

theorem unzipLoop_append (H : Host σ) (a b : List ZipFile) (idx : Nat) (S : Sys σ)
    (h : (unzipLoop H a idx S).1.2 = none) :
    unzipLoop H (a ++ b) idx S = unzipLoop H b (idx + a.length) (unzipLoop H a idx S).2 := by
  induction a generalizing idx S with
  | nil => simp [unzipLoop]
  | cons g a ih =>
    simp only [unzipLoop, List.cons_append, List.length_cons] at h ⊢
    split
    · rename_i code e S1 heq
      rw [heq] at h
      simp at h
    · rename_i code S1 heq
      rw [heq] at h
      simp only [] at h
      have := ih (idx + 1) S1 h
      rw [show idx + 1 + a.length = idx + (a.length + 1) by omega] at this
      exact this

theorem unzipLoop_ok_left (H : Host σ) (a b : List ZipFile) (idx : Nat) (S : Sys σ)
    (h : (unzipLoop H (a ++ b) idx S).1.2 = none) : (unzipLoop H a idx S).1.2 = none := by
  induction a generalizing idx S with
  | nil => rfl
  | cons g a ih =>
    simp only [unzipLoop, List.cons_append] at h ⊢
    split
    · rename_i code e S1 heq
      rw [heq] at h
      simp at h
    · rename_i code S1 heq
      rw [heq] at h
      exact ih (idx + 1) S1 h

/-- After an Unzip that returned nil on an archive with a first entry, the
field ziproot holds the name of that entry; the other fields are as before. -/
theorem Unzip_ziproot (H : Host σ) (S : Sys σ) (first : ZipFile) (rest : List ZipFile)
    (hopen : H.zipOpenReader S.os S.npm.zippath = .ok (first :: rest))
    (hok : (Unzip H S).1.2 = none) :
    (Unzip H S).2.npm.ziproot = first.name := by
  simp only [Unzip, hopen] at hok ⊢
  simp only [effect_npm]
  have h0 := (unzipLoop_ok_iff H (first :: rest) 0 _).1 hok [] first rest rfl
  simp only [unzipLoop, List.length_nil, Nat.add_zero] at h0
  have hf := eawf_first H _ first h0
  simp only [unzipLoop]
  split
  · rename_i code e S1 heq
    rw [heq] at h0
    simp at h0
  · rename_i code S1 heq
    rw [heq] at hf
    rw [(unzipLoop_later H rest (0 + 1) S1 (by omega)).2]
    exact hf.2

theorem Download_npm (H : Host σ) (S : Sys σ) (url name : String) :
    (Download H S url name).2.npm = S.npm := rfl

theorem CreateModules_npm (H : Host σ) (S : Sys σ) : (CreateModules H S).npm = S.npm := by
  simp only [CreateModules]
  split <;> rfl

theorem Clean_npm (H : Host σ) (S : Sys σ) (p : String) : (Clean H S p).2.npm = S.npm := by
  simp only [Clean]
  split <;> rfl

theorem cleanEach_npm (H : Host σ) (ps : List String) (S : Sys σ) :
    (cleanEach H ps S).2.npm = S.npm := by
  induction ps generalizing S with
  | nil => rfl
  | cons v rest ih =>
    have h := Clean_npm H S v
    simp only [cleanEach]
    split
    · rename_i e S1 heq
      rw [heq] at h
      exact h
    · rename_i S1 heq
      rw [heq] at h
      rw [ih S1]
      exact h

theorem CleanAll_npm (H : Host σ) (S : Sys σ) : (CleanAll H S).2.npm = S.npm :=
  cleanEach_npm H _ S

theorem eawf_npm (H : Host σ) (S : Sys σ) (g : ZipFile) (idx : Nat) :
    ∃ z, (extractAndWriteFile H S g idx).2.npm = { S.npm with ziproot := z } := by
  have ha : ∃ z, (assignRoot (S.note (.call (.fileOpen g.name))) g idx).npm =
      { S.npm with ziproot := z } := by
    unfold assignRoot
    split
    · exact ⟨g.name, rfl⟩
    · exact ⟨S.npm.ziproot, rfl⟩
  obtain ⟨z, hz⟩ := ha
  simp only [extractAndWriteFile, Sys.effect]
  split
  · exact ⟨S.npm.ziproot, rfl⟩
  · split
    · exact ⟨z, hz⟩
    · split
      · rename_i e S3 heq
        simp only [Prod.mk.injEq] at heq
        exact ⟨z, by simp [← heq.2, hz]⟩
      · rename_i S3 heq
        simp only [Prod.mk.injEq] at heq
        split
        · rename_i e S4 heq4
          simp only [Prod.mk.injEq] at heq4
          exact ⟨z, by simp [← heq.2, ← heq4.2, hz]⟩
        · rename_i S4 heq4
          simp only [Prod.mk.injEq] at heq4
          exact ⟨z, by simp [← heq.2, ← heq4.2, hz]⟩

theorem unzipLoop_npm (H : Host σ) (files : List ZipFile) (idx : Nat) (S : Sys σ) :
    ∃ z, (unzipLoop H files idx S).2.npm = { S.npm with ziproot := z } := by
  induction files generalizing idx S with
  | nil => exact ⟨S.npm.ziproot, rfl⟩
  | cons f rest ih =>
    obtain ⟨z, hz⟩ := eawf_npm H S f idx
    simp only [unzipLoop]
    split
    · rename_i code e S1 heq
      rw [heq] at hz
      exact ⟨z, hz⟩
    · rename_i code S1 heq
      rw [heq] at hz
      obtain ⟨z2, hz2⟩ := ih (idx + 1) S1
      exact ⟨z2, by rw [hz2, hz]⟩

theorem Unzip_npm (H : Host σ) (S : Sys σ) :
    ∃ z, (Unzip H S).2.npm = { S.npm with ziproot := z } := by
  simp only [Unzip]
  split
  · exact ⟨S.npm.ziproot, rfl⟩
  · rename_i files _
    obtain ⟨z, hz⟩ := unzipLoop_npm H files 0 (S.note (.call (.zipOpenReader S.npm.zippath)))
    exact ⟨z, by simpa using hz⟩

/-- What a copyFile that returned nil did, primitive by primitive. -/
theorem copyFile_ok_os (H : Host σ) (S : Sys σ) (src dst name : String)
    (hok : (copyFile H S src dst name).1 = none) :
    H.osOpen S.os (src ++ H.DIVIDE ++ name) = none ∧
    (H.osCreate S.os (dst ++ H.DIVIDE ++ name)).1 = none ∧
    (H.copyPath (H.osCreate S.os (dst ++ H.DIVIDE ++ name)).2 (dst ++ H.DIVIDE ++ name)
      (src ++ H.DIVIDE ++ name)).1 = none ∧
    (copyFile H S src dst name).2.os =
      (H.close (H.close (H.sync (H.copyPath (H.osCreate S.os (dst ++ H.DIVIDE ++ name)).2
        (dst ++ H.DIVIDE ++ name) (src ++ H.DIVIDE ++ name)).2 (dst ++ H.DIVIDE ++ name)).2
        (dst ++ H.DIVIDE ++ name)).2 (src ++ H.DIVIDE ++ name)).2 ∧
    (copyFile H S src dst name).2.npm = S.npm := by
  revert hok
  simp only [copyFile, Sys.effect, note_os]
  cases h1 : H.osOpen S.os (src ++ H.DIVIDE ++ name) with
  | some e => simp
  | none =>
    simp only []
    cases h2 : (H.osCreate S.os (dst ++ H.DIVIDE ++ name)).1 with
    | some e => simp
    | none =>
      simp only []
      cases h3 : (H.copyPath (H.osCreate S.os (dst ++ H.DIVIDE ++ name)).2
          (dst ++ H.DIVIDE ++ name) (src ++ H.DIVIDE ++ name)).1 with
      | some e => simp
      | none =>
        simp only []
        cases h4 : (H.sync (H.copyPath (H.osCreate S.os (dst ++ H.DIVIDE ++ name)).2
            (dst ++ H.DIVIDE ++ name) (src ++ H.DIVIDE ++ name)).2
            (dst ++ H.DIVIDE ++ name)).1 with
        | some e => simp
        | none =>
          simp only []
          intro _
          refine ⟨?_, ?_, ?_, ?_, ?_⟩ <;> trivial

theorem copyFile_npm (H : Host σ) (S : Sys σ) (src dst name : String) :
    (copyFile H S src dst name).2.npm = S.npm := by
  simp only [copyFile, Sys.effect]
  split
  · rfl
  · split
    · rename_i e S2 h2
      simp only [Prod.mk.injEq] at h2
      simp [← h2.2]
    · rename_i S2 h2
      simp only [Prod.mk.injEq] at h2
      split
      · rename_i e S3 h3
        simp only [Prod.mk.injEq] at h3
        simp [← h2.2, ← h3.2]
      · rename_i S3 h3
        simp only [Prod.mk.injEq] at h3
        split
        · rename_i e S4 h4
          simp only [Prod.mk.injEq] at h4
          simp [← h2.2, ← h3.2, ← h4.2]
        · rename_i S4 h4
          simp only [Prod.mk.injEq] at h4
          simp [← h2.2, ← h3.2, ← h4.2]

/-- An Exec that returned nil is the rename followed by the two copies, all of
which returned nil. -/
theorem Exec_ok_inv (H : Host σ) (S : Sys σ) (hok : (Exec H S).1 = none) :
    (H.rename S.os (S.npm.modules ++ H.DIVIDE ++ S.npm.ziproot) S.npm.npmpath).1 = none ∧
    (copyFile H (S.effect (.rename (S.npm.modules ++ H.DIVIDE ++ S.npm.ziproot) S.npm.npmpath)
      (H.rename S.os (S.npm.modules ++ H.DIVIDE ++ S.npm.ziproot) S.npm.npmpath)).2
      S.npm.npmbin S.npm.root S.npm.command1).1 = none ∧
    (Exec H S).1 = none ∧
    Exec H S = copyFile H
      (copyFile H (S.effect (.rename (S.npm.modules ++ H.DIVIDE ++ S.npm.ziproot) S.npm.npmpath)
        (H.rename S.os (S.npm.modules ++ H.DIVIDE ++ S.npm.ziproot) S.npm.npmpath)).2
        S.npm.npmbin S.npm.root S.npm.command1).2
      S.npm.npmbin S.npm.root S.npm.command2 := by
  refine ⟨?_, ?_, hok, ?_⟩ <;> revert hok <;> simp only [Exec] <;> split
  · rename_i e S1 h1
    simp
  · rename_i S1 h1
    intro _
    exact congrArg Prod.fst h1
  · rename_i e S1 h1
    simp
  · rename_i S1 h1
    have hS1 := congrArg Prod.snd h1
    simp only [] at hS1
    rw [hS1]
    split
    · simp
    · rename_i S2 h2
      intro _
      exact congrArg Prod.fst h2
  · rename_i e S1 h1
    simp
  · rename_i S1 h1
    have hS1 := congrArg Prod.snd h1
    simp only [] at hS1
    rw [hS1]
    split
    · simp
    · rename_i S2 h2
      have hS2 := congrArg Prod.snd h2
      simp only [] at hS2
      rw [hS2]
      split
      · simp
      · rename_i S3 h3
        intro _
        exact h3.symm

theorem Exec_npm (H : Host σ) (S : Sys σ) : (Exec H S).2.npm = S.npm := by
  simp only [Exec]
  split
  · rename_i e S1 h1
    have := congrArg (fun r => r.2.npm) h1
    simpa using this.symm
  · rename_i S1 h1
    have hS1 : S1.npm = S.npm := by
      have := congrArg (fun r => r.2.npm) h1
      simpa using this.symm
    have c1 := copyFile_npm H S1 S.npm.npmbin S.npm.root S.npm.command1
    split
    · rename_i e S2 h2
      rw [h2] at c1
      exact c1.trans hS1
    · rename_i S2 h2
      rw [h2] at c1
      have c2 := copyFile_npm H S2 S.npm.npmbin S.npm.root S.npm.command2
      split
      · rename_i e S3 h3
        rw [h3] at c2
        exact c2.trans (c1.trans hS1)
      · rename_i S3 h3
        rw [h3] at c2
        exact c2.trans (c1.trans hS1)

/-- A run that ended on the last return path went through every step, and
Download, Unzip and Exec returned nil. -/
theorem downloadNpm_done_inv (H : Host σ) (S : Sys σ) (version : String) (c : Option Err)
    (h : (downloadNpm H S version).1 = DlOutcome.done c) :
    let d := Download H ((New H S (zipNameOf version)).note (.step .download))
      (urlOf H S.os version) (zipNameOf version)
    let ca := CleanAll H ((CreateModules H (d.2.note (.step .createModules))).note (.step .cleanAll))
    let u := Unzip H (ca.2.note (.step .unzip))
    let x := Exec H (u.2.note (.step .exec))
    let k := Clean H (x.2.note (.step .clean)) x.2.npm.zippath
    d.1 = none ∧ u.1.2 = none ∧ x.1 = none ∧ k.1 = c ∧ (downloadNpm H S version).2 = k.2 := by
  intro d ca u x k
  revert h
  simp only [downloadNpm]
  rw [show Download H ((New H S (zipNameOf version)).note (.step .download))
    (urlOf H S.os version) (zipNameOf version) = d from rfl]
  rcases hd : d with ⟨_ | e, D⟩
  · simp only []
    have hD : D = d.2 := by rw [hd]
    rw [hD]
    rw [show Unzip H ((CleanAll H ((CreateModules H (d.2.note (.step .createModules))).note
      (.step .cleanAll))).2.note (.step .unzip)) = u from rfl]
    rcases hu : u with ⟨⟨code, _ | e⟩, U⟩
    · simp only []
      have hU : U = u.2 := by rw [hu]
      rw [hU]
      rw [show Exec H (u.2.note (.step .exec)) = x from rfl]
      rcases hx : x with ⟨_ | e, X⟩
      · simp only []
        have hX : X = x.2 := by rw [hx]
        rw [hX]
        intro h
        simp only [DlOutcome.done.injEq] at h
        exact ⟨trivial, trivial, trivial, h, rfl⟩
      · simp
    · simp
  · simp

theorem Unzip_ok_opened (H : Host σ) (S : Sys σ) (h : (Unzip H S).1.2 = none) :
    ∃ files, H.zipOpenReader S.os S.npm.zippath = .ok files := by
  cases ho : H.zipOpenReader S.os S.npm.zippath with
  | error e => simp [Unzip, ho] at h
  | ok files => exact ⟨files, rfl⟩

/-! ## Unzip on the simulated disk -/

theorem onPath_ok (p : String) (d : Disk) (k : Path → Option Err × Disk)
    (h : (onPath p d k).1 = none) : p ≠ "" ∧ onPath p d k = k (comps p) := by
  unfold onPath at h ⊢
  split
  · rename_i h0
    simp [h0] at h
  · rename_i h0
    exact ⟨h0, rfl⟩

theorem onPath_cases (p : String) (d : Disk) (k : Path → Option Err × Disk) :
    (onPath p d k).2 = d ∨ (p ≠ "" ∧ onPath p d k = k (comps p)) := by
  unfold onPath
  split
  · exact Or.inl rfl
  · rename_i h0
    exact Or.inr ⟨h0, rfl⟩

/-- MkdirAll on the simulated machine: nothing changes, or no file stands on
the way and the missing directories appear. -/
theorem sim_mkdirAll_cases (m : Sim) (d : Disk) (path : String) (mode : Nat) :
    (m.host.mkdirAll d path mode).2 = d ∨
    ((comps path).inits.any (isFileAt d) = false ∧
      (m.host.mkdirAll d path mode).2 = withDirs d (comps path)) := by
  show (m.guard (.mkdirAll path mode) d (onPath path d (mkdirAllAt d))).2 = d ∨ _
  rcases guard_cases m (.mkdirAll path mode) d (onPath path d (mkdirAllAt d)) with hg | hg
  · exact Or.inl hg
  · show _ ∨ (_ ∧ (m.guard (.mkdirAll path mode) d (onPath path d (mkdirAllAt d))).2 = _)
    rw [hg]
    rcases onPath_cases path d (mkdirAllAt d) with ho | ⟨_, ho⟩
    · exact Or.inl ho
    · rw [ho]
      unfold mkdirAllAt
      split
      · exact Or.inl rfl
      · rename_i hf
        exact Or.inr ⟨by simpa using hf, rfl⟩

/-- A file entry that returned nil on the simulated machine: the create of its
destination succeeded and the destination holds the payload. -/
theorem sim_eawf_file (m : Sim) (S : Sys Disk) (g : ZipFile) (idx : Nat)
    (hok : (extractAndWriteFile m.host S g idx).1.2 = none) (hd : g.isDir = false) :
    createAt S.os (comps (filepathJoin S.npm.modules g.name)) =
      (none, put S.os (comps (filepathJoin S.npm.modules g.name)) (Node.file [])) ∧
    (extractAndWriteFile m.host S g idx).2.os =
      put (put S.os (comps (filepathJoin S.npm.modules g.name)) (Node.file []))
        (comps (filepathJoin S.npm.modules g.name)) (Node.file g.data) := by
  obtain ⟨_, _, hfile⟩ := eawf_ok_os m.host S g idx hok
  obtain ⟨ho, hc, hos⟩ := hfile hd
  rw [hos, sim_close, sim_close]
  have ho2 := guard_ok m (.openFile (filepathJoin S.npm.modules g.name) g.mode) S.os
    (onPath (filepathJoin S.npm.modules g.name) S.os (createAt S.os)) ho
  have ho3 := onPath_ok _ _ _ ho2.2
  have hopen : m.host.openFile S.os (m.host.join S.npm.modules g.name) g.mode =
      createAt S.os (comps (filepathJoin S.npm.modules g.name)) := by
    show m.guard (.openFile (filepathJoin S.npm.modules g.name) g.mode) S.os
      (onPath (filepathJoin S.npm.modules g.name) S.os (createAt S.os)) = _
    rw [ho2.1, ho3.2]
  have hcr : createAt S.os (comps (filepathJoin S.npm.modules g.name)) =
      (none, put S.os (comps (filepathJoin S.npm.modules g.name)) (Node.file [])) := by
    rcases createAt_cases S.os (comps (filepathJoin S.npm.modules g.name)) with h | ⟨e, h⟩
    · exact h
    · rw [hopen, h] at ho
      simp at ho
  rw [hopen, hcr] at hc ⊢
  have hc2 := guard_ok m (.copyEntry (filepathJoin S.npm.modules g.name) g.name)
    (put S.os (comps (filepathJoin S.npm.modules g.name)) (Node.file []))
    (none, put (put S.os (comps (filepathJoin S.npm.modules g.name)) (Node.file []))
      (comps (filepathJoin S.npm.modules g.name)) (Node.file g.data)) hc
  refine ⟨rfl, ?_⟩
  show (m.guard (.copyEntry (filepathJoin S.npm.modules g.name) g.name)
    (put S.os (comps (filepathJoin S.npm.modules g.name)) (Node.file []))
    (none, put (put S.os (comps (filepathJoin S.npm.modules g.name)) (Node.file []))
      (comps (filepathJoin S.npm.modules g.name)) (Node.file g.data))).2 = _
  rw [hc2.1]

/-- A directory entry on the simulated machine does what MkdirAll does. -/
theorem sim_eawf_dir (m : Sim) (S : Sys Disk) (g : ZipFile) (idx : Nat)
    (hok : (extractAndWriteFile m.host S g idx).1.2 = none) (hd : g.isDir = true) :
    (extractAndWriteFile m.host S g idx).2.os =
      (m.host.mkdirAll S.os (filepathJoin S.npm.modules g.name) g.mode).2 := by
  obtain ⟨_, hdir, _⟩ := eawf_ok_os m.host S g idx hok
  rw [hdir hd, sim_close]
  rfl

/-- On the simulated machine, an entry that returned nil keeps every file it
did not write itself. -/
theorem sim_eawf_keep (m : Sim) (S : Sys Disk) (g : ZipFile) (idx : Nat) (p : Path)
    (x : List Nat) (hp : S.os p = some (Node.file x))
    (hok : (extractAndWriteFile m.host S g idx).1.2 = none)
    (hne : g.isDir = true ∨ comps (filepathJoin S.npm.modules g.name) ≠ p) :
    (extractAndWriteFile m.host S g idx).2.os p = some (Node.file x) := by
  cases hd : g.isDir with
  | true =>
    rw [sim_eawf_dir m S g idx hok hd]
    rcases sim_mkdirAll_cases m S.os (filepathJoin S.npm.modules g.name) g.mode with h | ⟨_, h⟩
    · rw [h, hp]
    · rw [h]
      simp [withDirs, hp]
  | false =>
    have hne2 : comps (filepathJoin S.npm.modules g.name) ≠ p := by
      rcases hne with h | h
      · rw [hd] at h; simp at h
      · exact h
    rw [(sim_eawf_file m S g idx hok hd).2]
    simp [put, Ne.symm hne2, hp]

/-- On the simulated machine, a file entry that returned nil has its payload
at its destination. -/
theorem sim_eawf_put (m : Sim) (S : Sys Disk) (g : ZipFile) (idx : Nat)
    (hok : (extractAndWriteFile m.host S g idx).1.2 = none) (hd : g.isDir = false) :
    (extractAndWriteFile m.host S g idx).2.os (comps (filepathJoin S.npm.modules g.name)) =
      some (Node.file g.data) := by
  rw [(sim_eawf_file m S g idx hok hd).2]
  simp [put]

theorem sim_unzipLoop_keep (m : Sim) (files : List ZipFile) (idx : Nat) (S : Sys Disk)
    (p : Path) (x : List Nat) (hp : S.os p = some (Node.file x))
    (hok : (unzipLoop m.host files idx S).1.2 = none)
    (hne : ∀ g ∈ files, g.isDir = true ∨ comps (filepathJoin S.npm.modules g.name) ≠ p) :
    (unzipLoop m.host files idx S).2.os p = some (Node.file x) := by
  induction files generalizing idx S with
  | nil => exact hp
  | cons g rest ih =>
    simp only [unzipLoop] at hok ⊢
    have hm := eawf_modules m.host S g idx
    split
    · rename_i code e S1 heq
      rw [heq] at hok
      simp at hok
    · rename_i code S1 heq
      rw [heq] at hok hm
      have hk := sim_eawf_keep m S g idx p x hp (by rw [heq]) (hne g (by simp))
      rw [heq] at hk
      apply ih (idx + 1) S1 hk hok
      intro g2 hg2
      simp only [] at hm
      rw [hm]
      exact hne g2 (by simp [hg2])

/-- After a loop that returned nil, a file entry that no later file entry
overwrites has its payload at its destination. -/
theorem sim_unzipLoop_holds (m : Sim) (pre : List ZipFile) (f : ZipFile) (post : List ZipFile)
    (idx : Nat) (S : Sys Disk)
    (hok : (unzipLoop m.host (pre ++ f :: post) idx S).1.2 = none) (hd : f.isDir = false)
    (hlast : ∀ g ∈ post, g.isDir = true ∨
      comps (filepathJoin S.npm.modules g.name) ≠ comps (filepathJoin S.npm.modules f.name)) :
    (unzipLoop m.host (pre ++ f :: post) idx S).2.os
        (comps (filepathJoin S.npm.modules f.name)) = some (Node.file f.data) := by
  have hpre := unzipLoop_ok_left m.host pre (f :: post) idx S hok
  rw [unzipLoop_append m.host pre (f :: post) idx S hpre] at hok ⊢
  have hm := unzipLoop_modules m.host pre idx S
  generalize (unzipLoop m.host pre idx S).2 = T at hok hm ⊢
  simp only [unzipLoop] at hok ⊢
  have hm2 := eawf_modules m.host T f (idx + pre.length)
  split
  · rename_i code e S1 heq
    rw [heq] at hok
    simp at hok
  · rename_i code S1 heq
    rw [heq] at hok hm2
    simp only [] at hm2
    have hput := sim_eawf_put m T f (idx + pre.length) (by rw [heq]) hd
    rw [heq, hm] at hput
    apply sim_unzipLoop_keep m post _ S1 _ _ hput hok
    intro g hg
    rw [hm2, hm]
    exact hlast g hg

/-- Unzip itself, on the simulated machine. -/
theorem sim_Unzip_holds (m : Sim) (S : Sys Disk) (pre : List ZipFile) (f : ZipFile)
    (post : List ZipFile)
    (hopen : m.host.zipOpenReader S.os S.npm.zippath = .ok (pre ++ f :: post))
    (hok : (Unzip m.host S).1.2 = none) (hd : f.isDir = false)
    (hlast : ∀ g ∈ post, g.isDir = true ∨
      comps (filepathJoin S.npm.modules g.name) ≠ comps (filepathJoin S.npm.modules f.name)) :
    (Unzip m.host S).2.os (comps (filepathJoin S.npm.modules f.name)) =
      some (Node.file f.data) := by
  simp only [Unzip, hopen] at hok ⊢
  simp only [effect_os, sim_close]
  exact sim_unzipLoop_holds m pre f post 0 (S.note _) hok hd hlast

/-! ## Rename and copy on the simulated disk -/

/-- A rename that returned nil has moved the tree: what was at src/x is at
dst/x, and paths outside both trees are as before. -/
theorem sim_rename_ok (m : Sim) (d : Disk) (a b : String)
    (hok : (m.host.rename d a b).1 = none) :
    (∀ x, (m.host.rename d a b).2 (comps b ++ x) = d (comps a ++ x)) ∧
    (∀ q, (comps b).isPrefixOf q = false → (comps a).isPrefixOf q = false →
      (m.host.rename d a b).2 q = d q) := by
  have hg := guard_ok m (.rename a b) d (renamePath d a b) hok
  have hr : m.host.rename d a b = renamePath d a b := hg.1
  rw [hr]
  have h2 := hg.2
  revert h2
  simp only [renamePath]
  split
  · simp
  · simp only [renameAt]
    split
    · simp
    · split
      · rename_i heq
        intro _
        exact ⟨fun x => by rw [heq], fun q _ _ => rfl⟩
      · split
        · simp
        · split
          · simp
          · split
            · intro _
              refine ⟨fun x => ?_, fun q h1 h2 => ?_⟩
              · simp [isPrefixOf_append_self]
              · simp [h1, h2]
            · simp

/-- A copyFile that returned nil has put the bytes of the source at the
destination and changed nothing else. -/
theorem sim_copyFile_ok (m : Sim) (S : Sys Disk) (src dst name : String)
    (hok : (copyFile m.host S src dst name).1 = none)
    (hne : comps (src ++ "/" ++ name) ≠ comps (dst ++ "/" ++ name))
    (hsrc : comps (src ++ "/" ++ name) ≠ []) :
    ∃ b, S.os (comps (src ++ "/" ++ name)) = some (Node.file b) ∧
      (copyFile m.host S src dst name).2.os (comps (dst ++ "/" ++ name)) = some (Node.file b) ∧
      ∀ q, q ≠ comps (dst ++ "/" ++ name) → (copyFile m.host S src dst name).2.os q = S.os q := by
  obtain ⟨_, h2, h3, hos, _⟩ := copyFile_ok_os m.host S src dst name hok
  rw [hos, sim_close, sim_close, sim_sync]
  have g2 := guard_ok m (.osCreate (dst ++ "/" ++ name)) S.os
    (onPath (dst ++ "/" ++ name) S.os (createAt S.os)) h2
  have e2 : m.host.osCreate S.os (dst ++ "/" ++ name) =
      createAt S.os (comps (dst ++ "/" ++ name)) := by
    show m.guard (.osCreate (dst ++ "/" ++ name)) S.os
      (onPath (dst ++ "/" ++ name) S.os (createAt S.os)) = _
    rw [g2.1, (onPath_ok _ _ _ g2.2).2]
  have hc : createAt S.os (comps (dst ++ "/" ++ name)) =
      (none, put S.os (comps (dst ++ "/" ++ name)) (Node.file [])) := by
    rcases createAt_cases S.os (comps (dst ++ "/" ++ name)) with h | ⟨e, h⟩
    · exact h
    · have h2b : (m.host.osCreate S.os (dst ++ "/" ++ name)).1 = none := h2
      rw [e2, h] at h2b
      simp at h2b
  have g3 := guard_ok m (.copyPath (dst ++ "/" ++ name) (src ++ "/" ++ name))
    (m.host.osCreate S.os (dst ++ "/" ++ name)).2
    (copyPathAt (m.host.osCreate S.os (dst ++ "/" ++ name)).2 (comps (dst ++ "/" ++ name))
      (comps (src ++ "/" ++ name))) h3
  show ∃ b, S.os (comps (src ++ "/" ++ name)) = some (Node.file b) ∧
    (m.host.copyPath (m.host.osCreate S.os (dst ++ "/" ++ name)).2 (dst ++ "/" ++ name)
      (src ++ "/" ++ name)).2 (comps (dst ++ "/" ++ name)) = some (Node.file b) ∧
    ∀ q, q ≠ comps (dst ++ "/" ++ name) →
      (m.host.copyPath (m.host.osCreate S.os (dst ++ "/" ++ name)).2 (dst ++ "/" ++ name)
        (src ++ "/" ++ name)).2 q = S.os q
  have e3b : m.host.copyPath (m.host.osCreate S.os (dst ++ "/" ++ name)).2
      (dst ++ "/" ++ name) (src ++ "/" ++ name) =
      copyPathAt (m.host.osCreate S.os (dst ++ "/" ++ name)).2 (comps (dst ++ "/" ++ name))
        (comps (src ++ "/" ++ name)) := g3.1
  rw [e3b]
  have h3b := g3.2
  rw [e2, hc] at h3b ⊢
  revert h3b
  simp only [copyPathAt, look_of_ne_nil _ _ hsrc]
  have hput : put S.os (comps (dst ++ "/" ++ name)) (Node.file []) (comps (src ++ "/" ++ name))
      = S.os (comps (src ++ "/" ++ name)) := by
    simp [put, hne]
  rw [hput]
  cases hs : S.os (comps (src ++ "/" ++ name)) with
  | none => simp
  | some n =>
    cases n with
    | dir => simp
    | file b =>
      intro _
      refine ⟨b, rfl, by simp [put], fun q hq => by simp [put, hq]⟩

/-- An Exec that returned nil on the simulated machine: the extracted folder
now stands at node_modules/npm, and the two launchers in the root hold the
bytes of the ones in node_modules/npm/bin. -/
theorem sim_Exec_ok (m : Sim) (S : Sys Disk) (t : String)
    (hpath : S.npm.npmpath = m.root ++ "/" ++ "node_modules" ++ "/" ++ "npm")
    (hbin : S.npm.npmbin = m.root ++ "/" ++ "node_modules" ++ "/" ++ "npm" ++ "/" ++ "bin")
    (hroot : S.npm.root = m.root)
    (hc1 : S.npm.command1 = "npm") (hc2 : S.npm.command2 = "npm.cmd")
    (hz : comps (S.npm.modules ++ "/" ++ S.npm.ziproot) = comps m.root ++ ["node_modules", t])
    (hok : (Exec m.host S).1 = none) :
    (∀ y, (Exec m.host S).2.os (comps m.root ++ "node_modules" :: "npm" :: y) =
      S.os (comps m.root ++ "node_modules" :: t :: y)) ∧
    (∃ b, (Exec m.host S).2.os (comps m.root ++ ["npm"]) = some (Node.file b) ∧
      (Exec m.host S).2.os (comps m.root ++ ["node_modules", "npm", "bin", "npm"]) =
        some (Node.file b)) ∧
    (∃ b, (Exec m.host S).2.os (comps m.root ++ ["npm.cmd"]) = some (Node.file b) ∧
      (Exec m.host S).2.os (comps m.root ++ ["node_modules", "npm", "bin", "npm.cmd"]) =
        some (Node.file b)) := by
  obtain ⟨hr, hk1, _, hE⟩ := Exec_ok_inv m.host S hok
  have hk2 := hok
  rw [hE] at hk2 ⊢
  -- the rename
  have hren := sim_rename_ok m S.os (S.npm.modules ++ "/" ++ S.npm.ziproot) S.npm.npmpath hr
  have hdst : comps S.npm.npmpath = comps m.root ++ ["node_modules", "npm"] := by
    rw [hpath, comps_npm, comps_node_modules]
    simp
  rw [hz, hdst] at hren
  generalize hR : (S.effect (.rename (S.npm.modules ++ m.host.DIVIDE ++ S.npm.ziproot)
      S.npm.npmpath)
    (m.host.rename S.os (S.npm.modules ++ m.host.DIVIDE ++ S.npm.ziproot) S.npm.npmpath)).2 = R
    at hk1 hk2 ⊢
  have hRos : R.os = (m.host.rename S.os (S.npm.modules ++ "/" ++ S.npm.ziproot)
      S.npm.npmpath).2 := by
    rw [← hR]
    rfl
  -- the two copies
  have hs1 : comps (S.npm.npmbin ++ "/" ++ S.npm.command1) =
      comps m.root ++ ["node_modules", "npm", "bin", "npm"] := by
    rw [hbin, hc1, comps_npm, comps_bin, comps_npm, comps_node_modules]
    simp
  have hd1 : comps (S.npm.root ++ "/" ++ S.npm.command1) = comps m.root ++ ["npm"] := by
    rw [hroot, hc1, comps_npm]
  have hs2 : comps (S.npm.npmbin ++ "/" ++ S.npm.command2) =
      comps m.root ++ ["node_modules", "npm", "bin", "npm.cmd"] := by
    rw [hbin, hc2, comps_npm_cmd, comps_bin, comps_npm, comps_node_modules]
    simp
  have hd2 : comps (S.npm.root ++ "/" ++ S.npm.command2) = comps m.root ++ ["npm.cmd"] := by
    rw [hroot, hc2, comps_npm_cmd]
  obtain ⟨b1, hb1s, hb1d, hb1f⟩ := sim_copyFile_ok m R S.npm.npmbin S.npm.root S.npm.command1
    hk1 (by rw [hs1, hd1]; simp) (by rw [hs1]; simp)
  generalize hC : (copyFile m.host R S.npm.npmbin S.npm.root S.npm.command1).2 = C
    at hk2 hb1d hb1f ⊢
  obtain ⟨b2, hb2s, hb2d, hb2f⟩ := sim_copyFile_ok m C S.npm.npmbin S.npm.root S.npm.command2
    hk2 (by rw [hs2, hd2]; simp) (by rw [hs2]; simp)
  rw [hs1] at hb1s
  rw [hd1] at hb1d hb1f
  rw [hs2] at hb2s
  rw [hd2] at hb2d hb2f
  refine ⟨?_, ⟨b1, ?_, ?_⟩, ⟨b2, hb2d, ?_⟩⟩
  · intro y
    rw [hb2f _ (by simp), hb1f _ (by simp), hRos]
    have := hren.1 y
    simpa using this
  · rw [hb2f _ (by simp)]
    exact hb1d
  · rw [hb2f _ (by simp), hb1f _ (by simp)]
    exact hb1s
  · rw [hb2f _ (by simp)]
    exact hb2s

/-! ## A complete run -/

/-- On the simulated machine the archive that Unzip opens is the decoding of
the file at zippath. -/
theorem sim_opened (m : Sim) (d : Disk) (path : String) (files : List ZipFile)
    (h : m.host.zipOpenReader d path = .ok files) :
    ∃ bytes, look d (comps path) = some (Node.file bytes) ∧ m.decode bytes = some files := by
  have h2 : zipOpenReaderAt m d path = .ok files := h
  revert h2
  simp only [zipOpenReaderAt]
  split
  · simp
  · split
    · simp
    · split
      · rename_i bytes hl
        split
        · rename_i fs hdec
          intro h3
          simp only [Except.ok.injEq] at h3
          exact ⟨bytes, hl, by rw [hdec, h3]⟩
        · simp
      · simp

/-- The place an entry is extracted to is the place that the plain join of
root/node_modules and its name leads to. -/
theorem destOf_eq (m : Sim) (name : String) :
    destOf m name = comps (m.root ++ "/" ++ "node_modules" ++ "/" ++ name) :=
  (comps_filepathJoin _ _ (fun h => sep_ne_empty _ _ h.1)).1

/-- The disk after a complete run on the simulated machine, given the state
after each step. -/
theorem sim_run_core (m : Sim) (S : Sys Disk) (version : String) (bytes : List Nat)
    (first : ZipFile) (rest : List ZipFile) (t : String) (code : Int)
    (D S2 CA U X : Sys Disk) (k : Option Err × Sys Disk)
    (hD : Download m.host ((New m.host S (zipNameOf version)).note (.step .download))
      (urlOf m.host S.os version) (zipNameOf version) = (none, D))
    (hS2 : S2 = CreateModules m.host (D.note (.step .createModules)))
    (hCA : CA = (CleanAll m.host (S2.note (.step .cleanAll))).2)
    (hU : Unzip m.host (CA.note (.step .unzip)) = ((code, none), U))
    (hX : Exec m.host (U.note (.step .exec)) = (none, X))
    (hk : k = Clean m.host (X.note (.step .clean)) X.npm.zippath)
    (hver : '/' ∉ version.data)
    (hremote : m.remote (urlOf m.host S.os version) = some bytes)
    (hdecode : m.decode bytes = some (first :: rest))
    (htop : destOf m first.name = comps m.root ++ ["node_modules", t]) :
    (∀ pre f post rel, first :: rest = pre ++ f :: post → f.isDir = false →
      destOf m f.name = comps m.root ++ "node_modules" :: t :: "bin" :: rel →
      (∀ g ∈ post, g.isDir = true ∨ destOf m g.name ≠ destOf m f.name) →
      k.2.os (comps m.root ++ "node_modules" :: "npm" :: "bin" :: rel) =
        some (Node.file f.data)) ∧
    (∃ b, k.2.os (comps m.root ++ ["npm"]) = some (Node.file b) ∧
      k.2.os (comps m.root ++ ["node_modules", "npm", "bin", "npm"]) = some (Node.file b)) ∧
    (∃ b, k.2.os (comps m.root ++ ["npm.cmd"]) = some (Node.file b) ∧
      k.2.os (comps m.root ++ ["node_modules", "npm", "bin", "npm.cmd"]) =
        some (Node.file b)) ∧
    (k.1 = none → k.2.os (comps m.root ++ [zipNameOf version]) = none) := by
  -- the fields of npm at each stage
  have hDn : D.npm = (New m.host S (zipNameOf version)).npm := by
    have := congrArg (fun r => r.2.npm) hD
    simpa [Download_npm] using this.symm
  have hS2n : S2.npm = (New m.host S (zipNameOf version)).npm := by
    rw [hS2, CreateModules_npm]; exact hDn
  have hCAn : CA.npm = (New m.host S (zipNameOf version)).npm := by
    rw [hCA, CleanAll_npm]; exact hS2n
  obtain ⟨z, hUn⟩ : ∃ z, U.npm = { (New m.host S (zipNameOf version)).npm with ziproot := z } := by
    obtain ⟨z, hz⟩ := Unzip_npm m.host (CA.note (.step .unzip))
    rw [hU] at hz
    exact ⟨z, by rw [hz]; simp [hCAn]⟩
  have hXn : X.npm = U.npm := by
    have := Exec_npm m.host (U.note (.step .exec))
    rw [hX] at this
    exact this
  have hzipc : comps (m.root ++ "/" ++ zipNameOf version) =
      comps m.root ++ [zipNameOf version] := comps_zippath _ _ hver
  have hzne : comps m.root ++ [zipNameOf version] ≠ [] := by simp
  -- the archive is on the disk when Unzip starts
  have hDz : D.os (comps m.root ++ [zipNameOf version]) = some (Node.file bytes) := by
    obtain ⟨b, hb, _, hput⟩ := sim_Download_ok m ((New m.host S (zipNameOf version)).note
      (.step .download)) (urlOf m.host S.os version) (zipNameOf version) (by rw [hD])
    rw [hremote] at hb
    rw [hD] at hput
    simp only [Option.some.injEq] at hb
    rw [hb]
    simp only [] at hput
    rw [hput, ← hzipc]
    show put _ (comps (m.root ++ "/" ++ zipNameOf version)) _ _ = _
    simp [put]
  have hS2z : S2.os (comps m.root ++ [zipNameOf version]) = some (Node.file bytes) := by
    rw [hS2, sim_CreateModules_frame m _ _ (by simp [hDz])]
    exact hDz
  have hCAz : CA.os (comps m.root ++ [zipNameOf version]) = some (Node.file bytes) ∨
      CA.os (comps m.root ++ [zipNameOf version]) = none := by
    rw [hCA]
    rcases sim_cleanEach_same_or_none m _ (S2.note (.step .cleanAll))
      (comps m.root ++ [zipNameOf version]) with h | h
    · left
      show (cleanEach m.host _ _).2.os _ = _
      rw [h]
      exact hS2z
    · right
      exact h
  have hSuz : (CA.note (.step .unzip)).npm.zippath = m.root ++ "/" ++ zipNameOf version := by
    rw [note_npm, hCAn]; rfl
  have hUok : (Unzip m.host (CA.note (.step .unzip))).1.2 = none := by rw [hU]
  obtain ⟨files, hopen⟩ := Unzip_ok_opened m.host _ hUok
  have hfiles : files = first :: rest := by
    obtain ⟨b, hb, hdec⟩ := sim_opened m CA.os _ files hopen
    rw [hSuz, hzipc, look_of_ne_nil _ _ hzne] at hb
    rcases hCAz with h | h
    · rw [h] at hb
      simp only [Option.some.injEq, Node.file.injEq] at hb
      rw [← hb, hdecode] at hdec
      simp only [Option.some.injEq] at hdec
      exact hdec.symm
    · rw [h] at hb
      simp at hb
  rw [hfiles] at hopen
  have hzr : U.npm.ziproot = first.name := by
    have := Unzip_ziproot m.host _ first rest hopen hUok
    rw [hU] at this
    exact this
  -- Exec
  have hXok : (Exec m.host (U.note (.step .exec))).1 = none := by rw [hX]
  obtain ⟨hmove, hnpm, hcmd⟩ := sim_Exec_ok m (U.note (.step .exec)) t
    (by rw [note_npm, hUn]; rfl) (by rw [note_npm, hUn]; rfl)
    (by rw [note_npm, hUn]; rfl) (by rw [note_npm, hUn]; rfl) (by rw [note_npm, hUn]; rfl)
    (by
      rw [note_npm, hzr, ← htop, destOf_eq, hUn]
      rfl) hXok
  rw [hX] at hmove hnpm hcmd
  simp only [note_os] at hmove
  -- the final Clean
  have hXz : X.npm.zippath = m.root ++ "/" ++ zipNameOf version := by
    rw [hXn, hUn]; rfl
  have hframe : ∀ (a : String) (r : Path), a = "node_modules" ∨ a = "npm" ∨ a = "npm.cmd" →
      k.2.os (comps m.root ++ a :: r) = X.os (comps m.root ++ a :: r) := by
    intro a r ha
    rw [hk, sim_Clean_frame m _ _ _
      (by rw [hXz, hzipc]; exact zip_not_above version hver _ a r ha)]
    rfl
  refine ⟨?_, ?_, ?_, ?_⟩
  · intro pre f post rel hsplit hd hname hlast
    rw [hframe _ _ (Or.inl rfl), hmove]
    rw [hsplit] at hopen
    have hmodules : (CA.note (.step .unzip)).npm.modules = m.root ++ "/" ++ "node_modules" := by
      rw [note_npm, hCAn]; rfl
    have := sim_Unzip_holds m (CA.note (.step .unzip)) pre f post hopen hUok hd
      (by rw [hmodules]; exact hlast)
    rw [hU, hmodules] at this
    have hname2 : comps (filepathJoin (m.root ++ "/" ++ "node_modules") f.name) =
        comps m.root ++ "node_modules" :: t :: "bin" :: rel := hname
    rw [hname2] at this
    exact this
  · obtain ⟨b, h1, h2⟩ := hnpm
    exact ⟨b, by rw [hframe _ _ (Or.inr (Or.inl rfl))]; exact h1,
      by rw [hframe _ _ (Or.inl rfl)]; exact h2⟩
  · obtain ⟨b, h1, h2⟩ := hcmd
    exact ⟨b, by rw [hframe _ _ (Or.inr (Or.inr rfl))]; exact h1,
      by rw [hframe _ _ (Or.inl rfl)]; exact h2⟩
  · intro hnone
    rw [hk] at hnone ⊢
    have := sim_Clean_ok_absent m (X.note (.step .clean)) X.npm.zippath
      (by rw [hXz, hzipc]; exact hzne) hnone
    rw [hXz, hzipc] at this
    rw [hXz]
    exact this

/-- C1 as stated fails: Download, Unzip and Exec all return no error, yet the
archive file is still in the root, because the removal in the final Clean was
refused and downloadNpm does not look at the result of Clean. -/
theorem downloadNpm_archive_left_when_removal_refused :
    (downloadNpm (sampleSim (failOn (.removeAll "/tmp/x/v3.8.5.zip") "denied")).host
      (Sys.init sampleDisk) "3.8.5").1 = DlOutcome.done (some "denied") ∧
    (downloadNpm (sampleSim (failOn (.removeAll "/tmp/x/v3.8.5.zip") "denied")).host
      (Sys.init sampleDisk) "3.8.5").2.os ["tmp", "x", "v3.8.5.zip"] = some (Node.file [7]) := by
  refine ⟨by decide, by decide⟩

/-- C1, amended: on the simulated machine, for every root, every starting
state, every version label without a separator and every archive whose first
entry is extracted to a folder t directly under root/node_modules: if a run of
downloadNpm goes through (Download, Unzip and Exec return no error), then
afterwards every file entry extracted to t/bin/rel, unless a later file entry
is extracted to the same place, is at root/node_modules/npm/bin/rel with its
bytes; root/npm and root/npm.cmd exist with the bytes of
root/node_modules/npm/bin/npm and npm.cmd; and, when the final Clean returned
no error, the archive file root/v<version>.zip no longer exists. -/
theorem downloadNpm_installs (m : Sim) (S : Sys Disk) (version : String) (bytes : List Nat)
    (first : ZipFile) (rest : List ZipFile) (t : String) (c : Option Err)
    (hver : '/' ∉ version.data)
    (hremote : m.remote (urlOf m.host S.os version) = some bytes)
    (hdecode : m.decode bytes = some (first :: rest))
    (htop : destOf m first.name = comps m.root ++ ["node_modules", t])
    (hdone : (downloadNpm m.host S version).1 = DlOutcome.done c) :
    (∀ pre f post rel, first :: rest = pre ++ f :: post → f.isDir = false →
      destOf m f.name = comps m.root ++ "node_modules" :: t :: "bin" :: rel →
      (∀ g ∈ post, g.isDir = true ∨ destOf m g.name ≠ destOf m f.name) →
      (downloadNpm m.host S version).2.os
        (comps m.root ++ "node_modules" :: "npm" :: "bin" :: rel) = some (Node.file f.data)) ∧
    (∃ b, (downloadNpm m.host S version).2.os (comps m.root ++ ["npm"]) = some (Node.file b) ∧
      (downloadNpm m.host S version).2.os
        (comps m.root ++ ["node_modules", "npm", "bin", "npm"]) = some (Node.file b)) ∧
    (∃ b, (downloadNpm m.host S version).2.os (comps m.root ++ ["npm.cmd"]) =
        some (Node.file b) ∧
      (downloadNpm m.host S version).2.os
        (comps m.root ++ ["node_modules", "npm", "bin", "npm.cmd"]) = some (Node.file b)) ∧
    (c = none →
      (downloadNpm m.host S version).2.os (comps m.root ++ [zipNameOf version]) = none) := by
  have inv := downloadNpm_done_inv m.host S version c hdone
  simp only [] at inv
  obtain ⟨hd, hu, hx, hk, hF⟩ := inv
  rw [hF]
  have core := sim_run_core m S version bytes first rest t _ _ _ _ _ _ _
    (Prod.ext hd rfl) rfl rfl (Prod.ext (Prod.ext rfl hu) rfl) (Prod.ext hx rfl) rfl
    hver hremote hdecode htop
  refine ⟨core.1, core.2.1, core.2.2.1, ?_⟩
  intro hc
  exact core.2.2.2 (by rw [hk, hc])

/-- Witness for C1: the fault-free run on the sample machine ends with the
launcher npm of the archive in node_modules/npm/bin. -/
theorem downloadNpm_installs_witness :
    (downloadNpm (sampleSim noFault).host (Sys.init sampleDisk) "3.8.5").2.os
      (comps "/tmp/x" ++ "node_modules" :: "npm" :: "bin" :: ["npm"]) =
      some (Node.file [1, 2]) :=
  (downloadNpm_installs (sampleSim noFault) (Sys.init sampleDisk) "3.8.5" [7]
    ⟨"npm-3.8.5/", true, 493, []⟩
    [⟨"npm-3.8.5/bin/", true, 493, []⟩, ⟨"npm-3.8.5/bin/npm", false, 420, [1, 2]⟩,
      ⟨"npm-3.8.5/bin/npm.cmd", false, 420, [3]⟩]
    "npm-3.8.5" none (by decide) (by decide) (by decide) (by decide) (by decide)).1
    [⟨"npm-3.8.5/", true, 493, []⟩, ⟨"npm-3.8.5/bin/", true, 493, []⟩]
    ⟨"npm-3.8.5/bin/npm", false, 420, [1, 2]⟩ [⟨"npm-3.8.5/bin/npm.cmd", false, 420, [3]⟩]
    ["npm"] (by decide) (by decide) (by decide) (by decide)

end Gnvm
